import Mathlib

/-!
Verification of the type-list algebra of `Framework/Foundation/include/Framework/Pack.h` and
of the view and binding layer exercised by `Framework/Core/test/test_AnalysisTask.cxx`.

A `pack<Ts...>` carries no data: it is a compile-time list of C++ types.  It is embedded as a
list of type names, and every template of `Pack.h` becomes a function on such lists.  A template
instantiation that would be ill-formed (an index past the end of a pack) is `none`.

The file has two parts: first all definitions (the embedding of the sources, the reference
operations written from the specification, the models of the classes whose sources are
missing), then all lemmas and theorems.
-/

namespace O2

/-! ## C++ types -/

/-- The C++ types that may be listed in a pack.  `named n` stands for the n-th user-defined
type (a column, a table, ...). -/
inductive Ty where
  | void
  | bool
  | char
  | int
  | float
  | double
  | pointer (pointee : Ty)
  | named (id : Nat)
  deriving DecidableEq, Repr

/-- Embedding of `std::is_void`. -/
def is_void : Ty → Bool
  | Ty.void => true
  | _ => false

/-! ## `pack` and its elementary operations (Pack.h 20-99) -/

/-- Embedding of `template <typename...> struct pack`. -/
abbrev Pack := List Ty

/-- Embedding of `pack_size`: `sizeof...(Ts)`. -/
def pack_size (p : Pack) : Nat := p.length

/-- Embedding of `pack_element<I, pack<Ts...>>::type`; there is no such type for `I` past the
end of the pack. -/
def pack_element : Nat → Pack → Option Ty
  | _, [] => none
  | 0, Head :: _ => some Head
  | I + 1, _ :: Tail => pack_element I Tail

/-- Embedding of the two-pack overload of `concatenate_pack`: `pack<Args1..., Args2...>`. -/
def concatenate_pack (p1 p2 : Pack) : Pack := p1 ++ p2

/-! ## `filter_pack` (Pack.h 182-206) -/

/-- Embedding of `filter_pack<Condition>(result, pack<T, Ts...>)`: when `Condition<T>()` holds
the recursion goes on with `result` unchanged, otherwise `T` is appended to `result`. -/
def filter_pack (Condition : Ty → Bool) (result : Pack) : Pack → Pack
  | [] => result
  | T :: Ts =>
    if Condition T then filter_pack Condition result Ts
    else filter_pack Condition (concatenate_pack result [T]) Ts

/-- Embedding of `filtered_pack<Condition, Types...>`: `filter_pack` started from `pack<>`. -/
def filtered_pack (Condition : Ty → Bool) (Types : Pack) : Pack :=
  filter_pack Condition [] Types

/-! ## `has_type` (Pack.h 208-215) -/

/-- Embedding of `has_type<T>(pack<Us...>)`: the fold `(std::same_as<T, Us> || ...)`. -/
def has_type (T : Ty) : Pack → Bool
  | [] => false
  | U :: Us => decide (T = U) || has_type T Us

/-! ## `intersect_pack`, `subtract_pack`, `concatenate_pack_unique` (Pack.h 252-318) -/

/-- Embedding of `std::make_index_sequence<N>`: the indices `0, ..., N-1`. -/
def make_index_sequence (N : Nat) : List Nat := List.range N

/-- Embedding of `intersect_pack<S1, S2>::make_intersection(index_sequence<Indices...>)`: every
index is replaced by `pack_element_t<Indices, S1>` when `S2` has that type and by `void`
otherwise, and the resulting list goes through `filtered_pack<std::is_void, ...>`. -/
def intersect_pack.make_intersection (S1 S2 : Pack) (Indices : List Nat) : Option Pack :=
  (Indices.mapM fun I =>
      (pack_element I S1).map fun E => if has_type E S2 then E else Ty.void).map
    (filtered_pack is_void)

/-- Embedding of `intersect_pack<S1, S2>::type` (and so of `intersected_pack_t<S1, S2>`). -/
def intersect_pack (S1 S2 : Pack) : Option Pack :=
  intersect_pack.make_intersection S1 S2 (make_index_sequence (pack_size S1))

/-- Embedding of the two-pack overload of `intersected_pack`. -/
def intersected_pack (A1 A2 : Pack) : Option Pack := intersect_pack A1 A2

/-- Embedding of `subtract_pack<S1, S2>::make_subtraction(index_sequence<Indices...>)`: every
index is replaced by `pack_element_t<Indices, S1>` when `S2` does not have that type and by
`void` otherwise, and the resulting list goes through `filtered_pack<std::is_void, ...>`. -/
def subtract_pack.make_subtraction (S1 S2 : Pack) (Indices : List Nat) : Option Pack :=
  (Indices.mapM fun I =>
      (pack_element I S1).map fun E => if !has_type E S2 then E else Ty.void).map
    (filtered_pack is_void)

/-- Embedding of `subtract_pack<S1, S2>::type`. -/
def subtract_pack (S1 S2 : Pack) : Option Pack :=
  subtract_pack.make_subtraction S1 S2 (make_index_sequence (pack_size S1))

/-- Embedding of the two-pack overload of `concatenate_pack_unique`:
`concatenate_pack(subtract_pack<A, B>::type{}, B)`. -/
def concatenate_pack_unique (Args1 Args2 : Pack) : Option Pack :=
  (subtract_pack Args1 Args2).map fun p1 => concatenate_pack p1 Args2

/-- Embedding of the one-pack and variadic overloads of `concatenate_pack_unique`, and so of
`concatenated_pack_unique_t<Ps...>`: one pack is returned as it is, and
`concatenate_pack_unique(p1, p2, ps...)` is
`concatenate_pack_unique(p1, concatenate_pack_unique(p2, ps...))`, where the outer call has two
arguments and resolves to the two-pack overload.  There is no overload without argument. -/
def concatenated_pack_unique_t : List Pack → Option Pack
  | [] => none
  | [P1] => some P1
  | P1 :: P2 :: Ps => (concatenated_pack_unique_t (P2 :: Ps)).bind (concatenate_pack_unique P1)

/-! ## `unique_pack` (Pack.h 320-333) -/

/-- Embedding of `unique_pack(pack<T, Ts...>, p2)`:
`unique_pack(pack<Ts...>{}, concatenate_pack_unique(pack<T>{}, p2))`, and `p2` for `pack<>`. -/
def unique_pack : Pack → Pack → Option Pack
  | [], p2 => some p2
  | T :: Ts, p2 => (concatenate_pack_unique [T] p2).bind (unique_pack Ts)

/-- Embedding of `unique_pack_t<P>`: `unique_pack(P{}, pack<>{})`. -/
def unique_pack_t (P : Pack) : Option Pack := unique_pack P []

/-! ## `with_condition_pack`, `prune_voids_pack`, `select_pack` (Pack.h 101-180)

A `Condition` is a variadic template template parameter: `Condition<T, Cs...>` takes the type
to check and a list of helper types.  It is embedded as a function of the type and of the
helper pack; `Condition<T>::value` and `Condition<T>()` are both its value at the empty helper
pack. -/

/-- Embedding of `with_condition_pack<Condition, Ts...>`:
`pack<std::conditional_t<Condition<Ts>::value, Ts, void>...>`. -/
def with_condition_pack (Condition : Ty → Pack → Bool) (Ts : Pack) : Pack :=
  Ts.map fun T => if Condition T [] then T else Ty.void

/-- The recursive overloads of `prune_voids_pack`, one constructor for each:
`Overload Rs P Rs' P'` holds when an overload accepts the call `prune_voids_pack(Rs, P)`
(its parameter pattern matches `P` and its `requires` clause holds) and its body is the call
`prune_voids_pack(Rs', P')`. -/
inductive prune_voids_pack.Overload : Pack → Pack → Pack → Pack → Prop where
  | nonVoid (Rs : Pack) (T : Ty) (Ts : Pack) (h : (!is_void T) = true) :
      prune_voids_pack.Overload Rs (T :: Ts) (Rs ++ [T]) Ts
  | isVoid (Rs : Pack) (V : Ty) (Ts : Pack) (h : is_void V = true) :
      prune_voids_pack.Overload Rs (V :: Ts) Rs Ts
  | two (Rs : Pack) (T1 T2 : Ty) (Ts : Pack) (h : (!is_void T1 && !is_void T2) = true) :
      prune_voids_pack.Overload Rs (T1 :: T2 :: Ts) (Rs ++ [T1, T2]) Ts
  | four (Rs : Pack) (T1 T2 T3 T4 : Ty) (Ts : Pack)
      (h : (!is_void T1 && !is_void T2 && !is_void T3 && !is_void T4) = true) :
      prune_voids_pack.Overload Rs (T1 :: T2 :: T3 :: T4 :: Ts) (Rs ++ [T1, T2, T3, T4]) Ts
  | eight (Rs : Pack) (T1 T2 T3 T4 T5 T6 T7 T8 : Ty) (Ts : Pack)
      (h : (!is_void T1 && !is_void T2 && !is_void T3 && !is_void T4 && !is_void T5
        && !is_void T6 && !is_void T7 && !is_void T8) = true) :
      prune_voids_pack.Overload Rs (T1 :: T2 :: T3 :: T4 :: T5 :: T6 :: T7 :: T8 :: Ts)
        (Rs ++ [T1, T2, T3, T4, T5, T6, T7, T8]) Ts

/-- The results that `prune_voids_pack(result, P)` can have, whichever accepting overload is
taken at each step: the overload for `pack<>` returns `result`, a recursive overload returns
what its recursive call returns. -/
inductive prune_voids_pack.Returns : Pack → Pack → Pack → Prop where
  | base (result : Pack) : prune_voids_pack.Returns result [] result
  | call {Rs P Rs' P' out : Pack} (h : prune_voids_pack.Overload Rs P Rs' P')
      (r : prune_voids_pack.Returns Rs' P' out) : prune_voids_pack.Returns Rs P out

/-- Embedding of `prune_voids_pack(result, P)` with the overload that C++ selects at each
step.  A leading `void` is only accepted by the void-dropping overload.  For a leading
non-void type the accepting overloads are those whose whole batch (1, 2, 4 or 8 leading types)
is present and free of `void`; a longer parameter pattern is the more specialised one, so the
longest accepted batch is taken. -/
def prune_voids_pack : Pack → Pack → Pack
  | result, [] => result
  | result, [T] =>
    if is_void T then prune_voids_pack result []
    else prune_voids_pack (result ++ [T]) []
  | result, T1 :: T2 :: T3 :: T4 :: T5 :: T6 :: T7 :: T8 :: Ts =>
    if is_void T1 then prune_voids_pack result (T2 :: T3 :: T4 :: T5 :: T6 :: T7 :: T8 :: Ts)
    else if !is_void T2 && !is_void T3 && !is_void T4 && !is_void T5 && !is_void T6
        && !is_void T7 && !is_void T8 then
      prune_voids_pack (result ++ [T1, T2, T3, T4, T5, T6, T7, T8]) Ts
    else if !is_void T2 && !is_void T3 && !is_void T4 then
      prune_voids_pack (result ++ [T1, T2, T3, T4]) (T5 :: T6 :: T7 :: T8 :: Ts)
    else if !is_void T2 then
      prune_voids_pack (result ++ [T1, T2]) (T3 :: T4 :: T5 :: T6 :: T7 :: T8 :: Ts)
    else prune_voids_pack (result ++ [T1]) (T2 :: T3 :: T4 :: T5 :: T6 :: T7 :: T8 :: Ts)
  | result, T1 :: T2 :: T3 :: T4 :: Ts =>
    if is_void T1 then prune_voids_pack result (T2 :: T3 :: T4 :: Ts)
    else if !is_void T2 && !is_void T3 && !is_void T4 then
      prune_voids_pack (result ++ [T1, T2, T3, T4]) Ts
    else if !is_void T2 then prune_voids_pack (result ++ [T1, T2]) (T3 :: T4 :: Ts)
    else prune_voids_pack (result ++ [T1]) (T2 :: T3 :: T4 :: Ts)
  | result, T1 :: T2 :: Ts =>
    if is_void T1 then prune_voids_pack result (T2 :: Ts)
    else if !is_void T2 then prune_voids_pack (result ++ [T1, T2]) Ts
    else prune_voids_pack (result ++ [T1]) (T2 :: Ts)

/-- Embedding of `select_pack<Condition>(result, pack<T, Ts...>, condPack)`: `T` is appended
to `result` when `Condition<T, Cs...>()` holds, and skipped otherwise. -/
def select_pack (Condition : Ty → Pack → Bool) (result : Pack) : Pack → Pack → Pack
  | [], _ => result
  | T :: Ts, condPack =>
    if Condition T condPack then
      select_pack Condition (concatenate_pack result [T]) Ts condPack
    else select_pack Condition result Ts condPack

/-- Embedding of `selected_pack<Condition, Types...>`:
`prune_voids_pack(pack<>{}, with_condition_pack<Condition, Types...>{})`. -/
def selected_pack (Condition : Ty → Pack → Bool) (Types : Pack) : Pack :=
  prune_voids_pack [] (with_condition_pack Condition Types)

/-- Embedding of `selected_pack_multicondition<Condition, CondPack, Pack>`:
`select_pack<Condition>(pack<>{}, Pack{}, CondPack{})`. -/
def selected_pack_multicondition (Condition : Ty → Pack → Bool) (CondPack P : Pack) : Pack :=
  select_pack Condition [] P CondPack

/-! ## `concatenated_pack_t`, `interleave_pack`, `has_type_at_v`, `full_intersected_pack_t` -/

/-- Embedding of `concatenated_pack_t<Ps...>`, that is of `concatenate_pack(Ps{}...)`: two
packs go to the two-pack overload, and `concatenate_pack(p1, p2, ps...)` is
`concatenate_pack(p1, concatenate_pack(p2, ps...))`, where the outer call has two arguments
and resolves to the two-pack overload.  There is no overload for fewer than two arguments. -/
def concatenated_pack_t : List Pack → Option Pack
  | [] => none
  | [_] => none
  | [P1, P2] => some (concatenate_pack P1 P2)
  | P1 :: P2 :: P3 :: Ps => (concatenated_pack_t (P2 :: P3 :: Ps)).map (concatenate_pack P1)

/-- Embedding of `interleave_pack(pack<Args1...>, pack<Args2...>)`:
`concatenated_pack_t<pack<Args1, Args2>...>`.  The expansion `pack<Args1, Args2>...` runs over
both parameter packs at once and is ill-formed when their lengths differ. -/
def interleave_pack (Args1 Args2 : Pack) : Option Pack :=
  if Args1.length = Args2.length then
    concatenated_pack_t (List.zipWith (fun A1 A2 => [A1, A2]) Args1 Args2)
  else none

/-- Embedding of the loop of `has_type_at_v`,
`for (size_t i = 0; i < size; ++i) { if (found[i]) { return i; } } return size + 1;`, with the
entries `found[i], found[i+1], ...` still to be visited as first argument. -/
def has_type_at_v.loop : List Bool → Nat → Nat → Nat
  | [], _, size => size + 1
  | f :: found, i, size => if f then i else has_type_at_v.loop found (i + 1) size

/-- Embedding of `has_type_at_v<T>(pack<Ts...>)`: `found` is `{std::same_as<T, Ts>...}`.  For
the empty pack the array `found[0]` has no element and the function is ill-formed. -/
def has_type_at_v (T : Ty) (Ts : Pack) : Option Nat :=
  match Ts with
  | [] => none
  | _ :: _ => some (has_type_at_v.loop (Ts.map fun U => decide (T = U)) 0 (pack_size Ts))

/-- Embedding of the overloads of `intersected_pack`, and so of
`full_intersected_pack_t<Ps...>`: two packs go to the two-pack overload, and
`intersected_pack(p1, p2, ps...)` is `intersected_pack(p1, intersected_pack(p2, ps...))`,
where the outer call has two arguments and resolves to the two-pack overload.  There is no
overload for fewer than two arguments. -/
def full_intersected_pack_t : List Pack → Option Pack
  | [] => none
  | [_] => none
  | [P1, P2] => intersected_pack P1 P2
  | P1 :: P2 :: P3 :: Ps => (full_intersected_pack_t (P2 :: P3 :: Ps)).bind (intersected_pack P1)

/-- Embedding of the trait `is_not_double` of the usage example in the doc comment of
Pack.h 67-76: `std::true_type` for every type, specialised to `std::false_type` for `double`. -/
def is_not_double : Ty → Bool
  | Ty.double => false
  | _ => true

/-! ## Reference list operations, written from the wording of the specification -/

/-- Order-preserving deduplication as the specification words it: every occurrence of a type
after its first one is removed. -/
def dedupKeepFirst : Pack → Pack
  | [] => []
  | T :: Ts => T :: (dedupKeepFirst Ts).filter fun U => decide (U ≠ T)

/-- Deduplication that keeps, of every type, its last occurrence: an occurrence is removed when
the same type occurs again further on. -/
def dedupKeepLast : Pack → Pack
  | [] => []
  | T :: Ts => if T ∈ Ts then dedupKeepLast Ts else T :: dedupKeepLast Ts

/-- Removal of the `void` entries one element at a time: a `void` is skipped, any other type
is kept. -/
def pruneVoidsOneByOne : Pack → Pack
  | [] => []
  | T :: Ts => if is_void T then pruneVoidsOneByOne Ts else T :: pruneVoidsOneByOne Ts

/-! ## View layer: tables, `soa::Filtered`, `Partition`

The classes are declared in `Framework/ASoA.h` and `Framework/AnalysisHelpers.h`, which are not
among the sources at hand; `test_AnalysisTask.cxx` only uses them.  They are modelled from
sections 3 and 4.3 of the specification. -/

/-- Modelled from the spec: the row accessor (`Framework/ASoA.h` is missing).  It exposes the
column values of one row and, as `index()`, the global identity of the row: its position in
the innermost concrete table. -/
structure RowAccessor (α : Type) where
  index : Nat
  values : α
  deriving DecidableEq, Repr

/-- Modelled from the spec: a table instance or a view (`soa::Table`, `soa::Filtered` of
`Framework/ASoA.h` are missing).  A view wraps a table instance or another view, plus a
selection vector: an ordered sequence of row indices into the wrapped table. -/
inductive View (α : Type) where
  | table (rows : List α)
  | filtered (wrapped : View α) (selection : List Nat)

/-- Modelled from the spec: `size()` of a table is its number of rows, `size()` of a filtered
view is the length of its selection vector. -/
def View.size {α : Type} : View α → Nat
  | View.table rows => rows.length
  | View.filtered _ selection => selection.length

/-- Modelled from the spec: the row accessor at position `k`.  In a table it is row `k` with
global index `k`; in a view it is addressed through the selection vector, so that the row
identity is the one of the wrapped table. -/
def View.rowAt {α : Type} : View α → Nat → Option (RowAccessor α)
  | View.table rows, k => (rows[k]?).map fun r => ⟨k, r⟩
  | View.filtered wrapped selection, k => (selection[k]?).bind fun i => View.rowAt wrapped i

/-- Modelled from the spec: iteration yields the row accessors of positions `0 .. size()-1`,
in that order. -/
def View.iterate {α : Type} (v : View α) : List (RowAccessor α) :=
  (List.range v.size).filterMap v.rowAt

/-- Modelled from the spec: the innermost concrete table instance of a (nested) view. -/
def View.innermost {α : Type} : View α → List α
  | View.table rows => rows
  | View.filtered wrapped _ => View.innermost wrapped

/-- Modelled from the spec: `expressions::createSelection` followed by
`soa::selectionToVector` (both missing): the predicate is evaluated over every row of the
wrapped table, in row order, and the indices of the passing rows form the selection vector. -/
def createSelection {α : Type} (t : View α) (predicate : α → Bool) : List Nat :=
  (List.range t.size).filter fun k =>
    match t.rowAt k with
    | some row => predicate row.values
    | none => false

/-- Modelled from the spec: `Filtered(T, predicate)`, the view of `T` given by the selection
vector of the rows that pass `predicate`. -/
def Filtered {α : Type} (t : View α) (predicate : α → Bool) : View α :=
  View.filtered t (createSelection t predicate)

/-- Modelled from the spec: the error of an accessor called on a view that was not bound. -/
inductive ViewError where
  | UnboundView
  deriving DecidableEq, Repr

/-- Modelled from the spec: `Partition<T>` (`Framework/AnalysisHelpers.h` is missing): a
predicate supplied once and the view `mFiltered`, absent until `bindTable` is called. -/
structure Partition (α : Type) where
  predicate : α → Bool
  mFiltered : Option (View α)

/-- Modelled from the spec: `Partition<T> p = predicate;` declares an unbound partition. -/
def Partition.declare {α : Type} (predicate : α → Bool) : Partition α :=
  ⟨predicate, none⟩

/-- Modelled from the spec: `bindTable` materialises the view, with the mechanics of
`Filtered`. -/
def Partition.bindTable {α : Type} (p : Partition α) (t : View α) : Partition α :=
  ⟨p.predicate, some (Filtered t p.predicate)⟩

/-- Modelled from the spec: `size()` of a partition; `UnboundView` before binding. -/
def Partition.size {α : Type} (p : Partition α) : Except ViewError Nat :=
  match p.mFiltered with
  | none => Except.error ViewError.UnboundView
  | some v => Except.ok v.size

/-- Modelled from the spec: iteration over a partition; `UnboundView` before binding. -/
def Partition.iterate {α : Type} (p : Partition α) : Except ViewError (List (RowAccessor α)) :=
  match p.mFiltered with
  | none => Except.error ViewError.UnboundView
  | some v => Except.ok v.iterate

/-- The rows of the test `TestPartitionIteration`: columns `fX`, `fY`.  The values written by
the test are the floats `0.0 .. 15.0`; they are whole numbers that are only compared with
whole-number bounds, and are embedded as natural numbers. -/
structure XY where
  x : Nat
  y : Nat
  deriving DecidableEq, Repr

/-- Embedding of `tableA` of the test: 8 rows, `x = 0..7`, `y = 8..15`. -/
def tableA : List XY :=
  [⟨0, 8⟩, ⟨1, 9⟩, ⟨2, 10⟩, ⟨3, 11⟩, ⟨4, 12⟩, ⟨5, 13⟩, ⟨6, 14⟩, ⟨7, 15⟩]

/-- Embedding of `p1` of the test: `aod::test::x < 4.0f`, bound to `testA`. -/
def p1 : Partition XY :=
  (Partition.declare fun r => decide (r.x < 4)).bindTable (View.table tableA)

/-- Embedding of `filtered` of the test: `testA` with the selection vector of `x < 4`. -/
def filteredA : View XY :=
  View.filtered (View.table tableA)
    (createSelection (View.table tableA) fun r => decide (r.x < 4))

/-- Embedding of `p2` of the test: `aod::test::y > 9.0f`, bound to `filtered`. -/
def p2 : Partition XY :=
  (Partition.declare fun r => decide (r.y > 9)).bindTable filteredA

/-- Embedding of `*(p2.mFiltered)` of the test: the view that binding `p2` materialises. -/
def p2Filtered : View XY :=
  Filtered filteredA fun r => decide (r.y > 9)

/-- Embedding of `p3` of the test: `aod::test::x < 3.0f`, bound to `*(p2.mFiltered)`. -/
def p3 : Partition XY :=
  (Partition.declare fun r => decide (r.x < 3)).bindTable p2Filtered

/-! ## Binding resolver: `adaptAnalysisTask`

`adaptAnalysisTask` is defined in `Framework/AnalysisTask.h` and the tables of the data model
in `Framework/AnalysisDataModel.h`; neither is among the sources at hand.  The resolver is
modelled from section 4.4 of the specification, and the declarations of the tables from the
bindings that `test_AnalysisTask.cxx` asserts. -/

/-- Modelled from the spec: the declaration of a table (`DECLARE_SOA_TABLE` and
`DECLARE_SOA_EXTENDED_TABLE` of the missing `Framework/ASoA.h`).  `name` is the declared name
of the table type, with its version when it has one; `label` is the label under which the
stored table is bound; `extended` tells an extended table, which is a stored base table joined
with an extension table of derived columns. -/
structure TableDecl where
  name : String
  label : String
  extended : Bool
  deriving DecidableEq, Repr

/-- Modelled from the spec: the labels of the tables that one declared table needs.  A plain
table needs itself.  An extended table needs its base, bound under the label, and its
extension, bound under the declared name followed by the fixed suffix `Extension`. -/
def TableDecl.labels (t : TableDecl) : List String :=
  if t.extended then [t.label, t.name ++ "Extension"] else [t.label]

/-- Modelled from the spec: a requirement, the shape of one argument of `process`: a table
`T`, a join `soa::Join<T1, T2, ...>` of tables, a filtered shape `soa::Filtered<R>`, or the
row iterator `R::iterator` of a shape. -/
inductive Requirement where
  | table (t : TableDecl)
  | join (ts : List TableDecl)
  | filtered (r : Requirement)
  | iterator (r : Requirement)
  deriving Repr

/-- Modelled from the spec: the constituent tables of a requirement, those of a join in the
order in which the join lists them. -/
def Requirement.tables : Requirement → List TableDecl
  | Requirement.table t => [t]
  | Requirement.join ts => ts
  | Requirement.filtered r => Requirement.tables r
  | Requirement.iterator r => Requirement.tables r

/-- Modelled from the spec: rule 1 of section 4.4, the labels of all tables a requirement
needs, extensions included. -/
def Requirement.labels (r : Requirement) : List String :=
  r.tables.flatMap TableDecl.labels

/-- Modelled from the spec: rules 1 and 4 of section 4.4.  The requirements are resolved in
declaration order; every needed table is listed with the position of its requirement, starting
from position `i`. -/
def resolveFrom : Nat → List Requirement → List (Nat × String)
  | _, [] => []
  | i, r :: rest => (r.labels.map fun l => (i, l)) ++ resolveFrom (i + 1) rest

/-- Modelled from the spec: `InputSpec` (missing), of which the test reads `binding`. -/
structure InputSpec where
  binding : String
  deriving DecidableEq, Repr

/-- Modelled from the spec: rule 3 of section 4.4.  The binding name is the label; a label
that an earlier binding of the same consumer already carries is disambiguated by a suffix
computed from the declaration position of the requirement.  The specification does not give
the format of that suffix: it is the parameter `suffix`. -/
def assignNames (suffix : Nat → String) : List String → List (Nat × String) → List InputSpec
  | _, [] => []
  | seen, (i, l) :: rest =>
    (if l ∈ seen then ⟨l ++ suffix i⟩ else ⟨l⟩) :: assignNames suffix (l :: seen) rest

/-- Modelled from the spec: the `inputs` of `adaptAnalysisTask<T>`, for a consumer `T` whose
`process` declares the requirements `process`.  These are the inputs that come from the
arguments of `process`.  A consumer can request further inputs through other declarations
(the `Spawns`, `Builds` and `Condition` members of `ATaskconsumer` and `KTask` in the test,
which have no `process`); those are not described by section 4.4 and are not modelled. -/
def adaptAnalysisTask (suffix : Nat → String) (process : List Requirement) : List InputSpec :=
  assignNames suffix [] (resolveFrom 0 process)

/-- Modelled from the spec: `o2::aod::Collisions` (missing), bound as `Collisions_001`. -/
def Collisions : TableDecl := ⟨"Collisions_001", "Collisions_001", false⟩

/-- Modelled from the spec: `o2::aod::Tracks` (missing), bound as `Tracks` and
`TracksExtension`. -/
def Tracks : TableDecl := ⟨"Tracks", "Tracks", true⟩

/-- Modelled from the spec: `o2::aod::TracksExtra` (missing), bound as `TracksExtra` and
`TracksExtra_002Extension`. -/
def TracksExtra : TableDecl := ⟨"TracksExtra_002", "TracksExtra", true⟩

/-- Modelled from the spec: `o2::aod::TracksCov` (missing), bound as `TracksCov` and
`TracksCovExtension`. -/
def TracksCov : TableDecl := ⟨"TracksCov", "TracksCov", true⟩

/-- Modelled from the spec: `o2::aod::AmbiguousTracks` (missing). -/
def AmbiguousTracks : TableDecl := ⟨"AmbiguousTracks", "AmbiguousTracks", false⟩

/-- Modelled from the spec: `o2::aod::Calos` (missing). -/
def Calos : TableDecl := ⟨"Calos", "Calos", false⟩

/-- Modelled from the spec: `o2::aod::CaloTriggers` (missing). -/
def CaloTriggers : TableDecl := ⟨"CaloTriggers", "CaloTriggers", false⟩

/-- Embedding of `DECLARE_SOA_TABLE(Foos, "AOD", "FOO", test::Foo)` of the test. -/
def Foos : TableDecl := ⟨"Foos", "Foos", false⟩

/-- Embedding of `DECLARE_SOA_TABLE(Bars, "AOD", "BAR", test::Bar)` of the test. -/
def Bars : TableDecl := ⟨"Bars", "Bars", false⟩

/-- Embedding of `DECLARE_SOA_TABLE(XYZ, "AOD", "XYZ", test::X, test::Y, test::Z)` of the
test. -/
def XYZ : TableDecl := ⟨"XYZ", "XYZ", false⟩

/-- Embedding of `BTask::process` of the test: `Collision const&`,
`Join<Tracks, TracksExtra, TracksCov> const&`, `AmbiguousTracks const&`, `Calos const&`,
`CaloTriggers const&`; `Collision` is the row iterator of `Collisions`. -/
def BTask : List Requirement :=
  [Requirement.iterator (Requirement.table Collisions),
   Requirement.join [Tracks, TracksExtra, TracksCov],
   Requirement.table AmbiguousTracks,
   Requirement.table Calos,
   Requirement.table CaloTriggers]

/-- Embedding of `CTask::process` of the test: `Collision const&`, `Tracks const&`. -/
def CTask : List Requirement :=
  [Requirement.iterator (Requirement.table Collisions), Requirement.table Tracks]

/-- Embedding of `DTask::process` of the test: `Tracks const&`. -/
def DTask : List Requirement :=
  [Requirement.table Tracks]

/-- Embedding of `GTask::process` of the test: `Join<Foos, Bars, XYZ> const&`. -/
def GTask : List Requirement :=
  [Requirement.join [Foos, Bars, XYZ]]

/-- Embedding of `DECLARE_SOA_TABLE(FooBars, "AOD", "FOOBAR", test::Foo, test::Bar,
test::Sum<test::Foo, test::Bar>)` of the test. -/
def FooBars : TableDecl := ⟨"FooBars", "FooBars", false⟩

/-- Embedding of `ETask::process` of the test: `FooBars::iterator const&`. -/
def ETask : List Requirement :=
  [Requirement.iterator (Requirement.table FooBars)]

/-- Embedding of `FTask::process` of the test: `soa::Filtered<FooBars>::iterator const&`. -/
def FTask : List Requirement :=
  [Requirement.iterator (Requirement.filtered (Requirement.table FooBars))]

/-- Embedding of `HTask::process` of the test: `Join<Foos, Bars, XYZ>::iterator const&`. -/
def HTask : List Requirement :=
  [Requirement.iterator (Requirement.join [Foos, Bars, XYZ])]

/-- Embedding of `ITask::process` of the test: `Collision const&`,
`soa::Filtered<Join<Foos, Bars, XYZ>> const&`. -/
def ITask : List Requirement :=
  [Requirement.iterator (Requirement.table Collisions),
   Requirement.filtered (Requirement.join [Foos, Bars, XYZ])]

/-- Embedding of `ATask::process` of the test: `o2::aod::Track const&`, the row iterator of
`Tracks`.  The member `Produces<aod::FooBars>` is an output. -/
def ATask : List Requirement :=
  [Requirement.iterator (Requirement.table Tracks)]

/-- Embedding of `JTask::process` of the test: `Collision const&`.  The member `Configurable`
is an option. -/
def JTask : List Requirement :=
  [Requirement.iterator (Requirement.table Collisions)]

/-- A suffix format for closed evaluations: the decimal position after an underscore. -/
def decimalSuffix (i : Nat) : String := "_" ++ toString i

/-! ## `CalibdEdxCorrection`: mean parameters (CalibdEdxCorrection.cxx 91-137)

The class is declared in `DataFormatsTPC/CalibdEdxCorrection.h` and the detector constants in
`DataFormatsTPC/Defs.h`; neither is among the sources at hand.  What the four functions use
of them is taken as a parameter: the constants, the table `mParams`, the accessor `getParams`
and the single-precision arithmetic itself. -/

/-- The operations on `float` that the mean functions use.  Every operation is a function of
its operands; nothing else is assumed of the arithmetic. -/
structure FloatOps (F : Type) where
  /-- Value of a value-initialised `float` and of the literal `0.f`. -/
  zero : F
  /-- Value of the literal `0.5f`. -/
  half : F
  /-- Conversion of an `int` to `float`. -/
  ofInt : Int → F
  /-- Addition of two `float`. -/
  add : F → F → F
  /-- Product of two `float`. -/
  mul : F → F → F
  /-- Quotient of two `float`. -/
  div : F → F → F

/-- The enumeration `ChargeType` (declared in the missing `Defs.h`): an enumerator is embedded
as its integer value, which is what `charge * FitSize / 2` uses. -/
abbrev ChargeType := Nat

/-- The enumeration `GEMstack` (declared in the missing `Defs.h`), embedded as its integer
value. -/
abbrev GEMstack := Nat

/-- Embedding of `StackID{index, stack}`. -/
structure StackID where
  index : Nat
  stack : GEMstack

/-- The part of `CalibdEdxCorrection` that the mean functions read: the constants `ParamSize`,
`FitSize`, `SECTORSPERSIDE`, `SIDES`, the table `mParams[row][param]` and the accessor
`getParams(stack, charge)`, which returns a row of parameters. -/
structure CalibdEdxCorrection (F : Type) where
  ParamSize : Nat
  FitSize : Nat
  SECTORSPERSIDE : Nat
  SIDES : Nat
  mParams : Nat → Nat → F
  getParams : StackID → ChargeType → Nat → F

/-- Embedding of
`std::transform(params.begin(), params.end(), row, params.begin(), std::plus<>())`: every
`params[p]` becomes `params[p] + row[p]`. -/
def CalibdEdxCorrection.transform {F : Type} (ops : FloatOps F) (params : List F)
    (row : Nat → F) : List F :=
  List.zipWith ops.add params ((List.range params.length).map row)

/-- Embedding of `CalibdEdxCorrection::getMeanParams(ChargeType charge)`. -/
def CalibdEdxCorrection.getMeanParams {F : Type} (ops : FloatOps F)
    (c : CalibdEdxCorrection F) (charge : ChargeType) : List F :=
  let params := (List.range (c.FitSize / 2)).foldl
    (fun params index =>
      CalibdEdxCorrection.transform ops params (c.mParams (index + charge * c.FitSize / 2)))
    (List.replicate c.ParamSize ops.zero)
  params.map fun val => ops.div val (ops.mul ops.half (ops.ofInt c.FitSize))

/-- Embedding of `CalibdEdxCorrection::getMeanParams(const GEMstack stack, ChargeType
charge)`. -/
def CalibdEdxCorrection.getMeanParamsOfStack {F : Type} (ops : FloatOps F)
    (c : CalibdEdxCorrection F) (stack : GEMstack) (charge : ChargeType) : List F :=
  let params := (List.range (c.SECTORSPERSIDE * c.SIDES)).foldl
    (fun params index =>
      CalibdEdxCorrection.transform ops params (c.getParams ⟨index, stack⟩ charge))
    (List.replicate c.ParamSize ops.zero)
  params.map fun val => ops.div val (ops.ofInt (c.SECTORSPERSIDE * c.SIDES))

/-- Embedding of `CalibdEdxCorrection::getMeanParam(ChargeType charge, uint32_t param)`. -/
def CalibdEdxCorrection.getMeanParam {F : Type} (ops : FloatOps F)
    (c : CalibdEdxCorrection F) (charge : ChargeType) (param : Nat) : F :=
  if param ≥ c.ParamSize then ops.zero
  else
    let mean := (List.range (c.FitSize / 2)).foldl
      (fun mean index => ops.add mean (c.mParams (index + charge * c.FitSize / 2) param))
      ops.zero
    ops.div mean (ops.mul ops.half (ops.ofInt c.FitSize))

/-- Embedding of `CalibdEdxCorrection::getMeanParam(const GEMstack stack, ChargeType charge,
uint32_t param)`. -/
def CalibdEdxCorrection.getMeanParamOfStack {F : Type} (ops : FloatOps F)
    (c : CalibdEdxCorrection F) (stack : GEMstack) (charge : ChargeType) (param : Nat) : F :=
  if param ≥ c.ParamSize then ops.zero
  else
    let mean := (List.range (c.SECTORSPERSIDE * c.SIDES)).foldl
      (fun mean index => ops.add mean (c.getParams ⟨index, stack⟩ charge param))
      ops.zero
    ops.div mean (ops.ofInt (c.SECTORSPERSIDE * c.SIDES))

/-- An arithmetic for closed evaluations: the integers, with `0.5f` read as 1. -/
def integerOps : FloatOps Int :=
  ⟨0, 1, fun n => n, fun a b => a + b, fun a b => a * b, fun a b => a / b⟩

/-- A correction object for closed evaluations: 3 parameters per fit, 4 fits, 2 sectors per
side, 1 side, and table entries that tell rows and parameters apart. -/
def sampleCorrection : CalibdEdxCorrection Int :=
  ⟨3, 4, 2, 1, fun row param => 100 * row + 10 * param + 7,
    fun stack charge param => 1000 * stack.index + 100 * stack.stack + 10 * charge + param⟩

/-! ## Lemmas on the pack algebra -/

theorem filter_pack_eq (Condition : Ty → Bool) (result Ts : Pack) :
    filter_pack Condition result Ts = result ++ Ts.filter (fun T => !Condition T) := by
  induction Ts generalizing result with
  | nil => simp [filter_pack]
  | cons T Ts ih =>
    by_cases h : Condition T = true
    · simp [filter_pack, h, ih]
    · simp [filter_pack, h, ih, concatenate_pack]

theorem filtered_pack_eq (Condition : Ty → Bool) (Ts : Pack) :
    filtered_pack Condition Ts = Ts.filter (fun T => !Condition T) := by
  simp [filtered_pack, filter_pack_eq]

theorem has_type_iff (T : Ty) (Us : Pack) : has_type T Us = true ↔ T ∈ Us := by
  induction Us with
  | nil => simp [has_type]
  | cons U Us ih => simp [has_type, ih]

theorem is_void_iff (T : Ty) : is_void T = true ↔ T = Ty.void := by
  cases T <;> simp [is_void]

theorem pack_element_append (pre : Pack) (T : Ty) (Ts : Pack) :
    pack_element pre.length (pre ++ T :: Ts) = some T := by
  induction pre with
  | nil => simp [pack_element]
  | cons P pre ih => simpa [pack_element] using ih

/-- Expanding `pack_element_t<Indices, S>` over the index sequence of `S` visits every type of
`S` once, in order, and never leaves the pack. -/
theorem expand_indices_aux (f : Ty → Ty) (S pre : Pack) :
    (List.range' pre.length S.length).mapM
        (fun I => (pack_element I (pre ++ S)).map f) = some (S.map f) := by
  induction S generalizing pre with
  | nil => rfl
  | cons T Ts ih =>
    have h := ih (pre ++ [T])
    simp only [List.length_append, List.length_singleton, List.append_assoc,
      List.singleton_append] at h
    rw [List.length_cons, List.range'_succ, List.mapM_cons, h, pack_element_append]
    rfl

theorem expand_indices (f : Ty → Ty) (S : Pack) :
    (make_index_sequence (pack_size S)).mapM (fun I => (pack_element I S).map f)
      = some (S.map f) := by
  have h := expand_indices_aux f S []
  simpa [make_index_sequence, pack_size, List.range_eq_range'] using h

/-- Marking the types that fail `c` as `void` and then dropping every `void` keeps exactly the
non-void types that pass `c`. -/
theorem filtered_void_map (c : Ty → Bool) (S : Pack) :
    filtered_pack is_void (S.map fun E => if c E = true then E else Ty.void)
      = S.filter (fun T => c T && !is_void T) := by
  rw [filtered_pack_eq]
  induction S with
  | nil => rfl
  | cons T Ts ih =>
    by_cases hc : c T = true
    · by_cases hv : is_void T = true
      · simp [hc, hv, ih]
      · simp [hc, hv, ih]
    · have hv : is_void Ty.void = true := rfl
      simp [hc, hv, ih]

theorem subtract_pack_eq (S1 S2 : Pack) :
    subtract_pack S1 S2
      = some (S1.filter fun T => !has_type T S2 && !is_void T) := by
  unfold subtract_pack subtract_pack.make_subtraction
  rw [expand_indices, Option.map_some']
  exact congrArg some (filtered_void_map (fun T => !has_type T S2) S1)

theorem intersect_pack_eq (S1 S2 : Pack) :
    intersect_pack S1 S2
      = some (S1.filter fun T => has_type T S2 && !is_void T) := by
  unfold intersect_pack intersect_pack.make_intersection
  rw [expand_indices, Option.map_some']
  exact congrArg some (filtered_void_map (fun T => has_type T S2) S1)

theorem concatenate_pack_unique_eq (A B : Pack) :
    concatenate_pack_unique A B
      = some ((A.filter fun T => !has_type T B && !is_void T) ++ B) := by
  simp [concatenate_pack_unique, subtract_pack_eq, concatenate_pack]

theorem filter_not_void (c : Ty → Bool) (A : Pack) (hv : Ty.void ∉ A) :
    A.filter (fun T => c T && !is_void T) = A.filter c := by
  apply List.filter_congr
  intro T hT
  have h : is_void T = false := by
    cases hT' : is_void T with
    | false => rfl
    | true => exact absurd ((is_void_iff T).1 hT' ▸ hT) hv
  simp [h]

theorem dedupKeepLast_of_nodup (B : Pack) (hB : B.Nodup) : dedupKeepLast B = B := by
  induction B with
  | nil => rfl
  | cons T Ts ih =>
    have h := List.nodup_cons.1 hB
    simp [dedupKeepLast, h.1, ih h.2]

theorem dedupKeepLast_append (A B : Pack) (hA : A.Nodup) (hB : B.Nodup) :
    dedupKeepLast (A ++ B) = A.filter (fun T => !has_type T B) ++ B := by
  induction A with
  | nil => simpa using dedupKeepLast_of_nodup B hB
  | cons T Ts ih =>
    have h := List.nodup_cons.1 hA
    by_cases hT : T ∈ B
    · have ht : has_type T B = true := (has_type_iff T B).2 hT
      simp [dedupKeepLast, hT, ht, ih h.2]
    · have ht : has_type T B = false := by
        cases hb : has_type T B with
        | false => rfl
        | true => exact absurd ((has_type_iff T B).1 hb) hT
      simp [dedupKeepLast, hT, ht, h.1, ih h.2]

theorem filter_split_length (c : Ty → Bool) (A : Pack) :
    (A.filter fun T => !c T).length + (A.filter c).length = A.length := by
  induction A with
  | nil => rfl
  | cons T Ts ih =>
    cases hc : c T <;> simp [hc] <;> omega

/-! ## Claims on the pack algebra -/

/-- C1 (as stated, refuted): `concatenate_pack_unique` is not the first-occurrence
deduplication of `A ++ B`.  For `A = pack<int, float>` and `B = pack<double, int>`, both free
of duplicates, the code returns `pack<float, double, int>` while the first-occurrence union is
`pack<int, float, double>`: `int` precedes `float` in `A` and follows it in the result.  For
`A = pack<void>` and `B = pack<>` the code returns the empty pack and so loses `void`. -/
theorem concatenate_pack_unique_not_first_occurrence :
    ([Ty.int, Ty.float] : Pack).Nodup ∧ ([Ty.double, Ty.int] : Pack).Nodup ∧
    concatenate_pack_unique [Ty.int, Ty.float] [Ty.double, Ty.int]
      = some [Ty.float, Ty.double, Ty.int] ∧
    dedupKeepFirst ([Ty.int, Ty.float] ++ [Ty.double, Ty.int])
      = [Ty.int, Ty.float, Ty.double] ∧
    concatenate_pack_unique [Ty.int, Ty.float] [Ty.double, Ty.int]
      ≠ some (dedupKeepFirst ([Ty.int, Ty.float] ++ [Ty.double, Ty.int])) ∧
    ([Ty.void] : Pack).Nodup ∧
    concatenate_pack_unique [Ty.void] [] = some [] ∧
    concatenate_pack_unique [Ty.void] [] ≠ some (dedupKeepFirst ([Ty.void] ++ [])) := by
  decide


/-- C1 (amended): for duplicate-free packs `A` and `B`, `A` without `void`,
`concatenate_pack_unique(A, B)` is `A ++ B` with every occurrence of a type removed that is
followed by a later occurrence of the same type: the types of `A` that do not occur in `B`, in
the order of `A`, followed by the whole of `B`. -/
theorem concatenate_pack_unique_keeps_last (A B : Pack) (hA : A.Nodup) (hB : B.Nodup)
    (hv : Ty.void ∉ A) :
    concatenate_pack_unique A B = some (dedupKeepLast (A ++ B)) ∧
    dedupKeepLast (A ++ B) = A.filter (fun T => !has_type T B) ++ B := by
  refine ⟨?_, dedupKeepLast_append A B hA hB⟩
  rw [concatenate_pack_unique_eq, dedupKeepLast_append A B hA hB,
    filter_not_void (fun T => !has_type T B) A hv]

/-- Witness of C1 (amended) at `A = pack<int, float>`, `B = pack<double, int>`. -/
theorem concatenate_pack_unique_keeps_last_witness :
    ([Ty.int, Ty.float] : Pack).Nodup ∧ ([Ty.double, Ty.int] : Pack).Nodup ∧
    Ty.void ∉ ([Ty.int, Ty.float] : Pack) ∧
    concatenate_pack_unique [Ty.int, Ty.float] [Ty.double, Ty.int]
      = some (dedupKeepLast ([Ty.int, Ty.float] ++ [Ty.double, Ty.int])) ∧
    dedupKeepLast ([Ty.int, Ty.float] ++ [Ty.double, Ty.int])
      = [Ty.int, Ty.float].filter (fun T => !has_type T [Ty.double, Ty.int])
          ++ [Ty.double, Ty.int] :=
  ⟨by decide, by decide, by decide,
    concatenate_pack_unique_keeps_last [Ty.int, Ty.float] [Ty.double, Ty.int]
      (by decide) (by decide) (by decide)⟩

/-- C2: for every pack `A` without `void` and every pack `B`, both `concatenate_pack_unique`
and `intersected_pack` are well-formed and
`pack_size(concatenate_pack_unique(A, B)) = pack_size(A) + pack_size(B) -
pack_size(intersected_pack(A, B))`. -/
theorem concatenate_pack_unique_size (A B : Pack) (hv : Ty.void ∉ A) :
    ∃ U I, concatenate_pack_unique A B = some U ∧ intersected_pack A B = some I ∧
      pack_size U = pack_size A + pack_size B - pack_size I := by
  refine ⟨_, _, concatenate_pack_unique_eq A B, intersect_pack_eq A B, ?_⟩
  rw [filter_not_void (fun T => !has_type T B) A hv,
    filter_not_void (fun T => has_type T B) A hv]
  have h := filter_split_length (fun T => has_type T B) A
  simp only [pack_size, List.length_append]
  omega

/-- Witness of C2 at `A = pack<int, float>`, `B = pack<float, double>`: the union has
`2 + 2 - 1 = 3` types. -/
theorem concatenate_pack_unique_size_witness :
    Ty.void ∉ ([Ty.int, Ty.float] : Pack) ∧
    ∃ U I, concatenate_pack_unique [Ty.int, Ty.float] [Ty.float, Ty.double] = some U ∧
      intersected_pack [Ty.int, Ty.float] [Ty.float, Ty.double] = some I ∧
      pack_size U = pack_size [Ty.int, Ty.float] + pack_size [Ty.float, Ty.double]
        - pack_size I :=
  ⟨by decide,
    concatenate_pack_unique_size [Ty.int, Ty.float] [Ty.float, Ty.double] (by decide)⟩

/-- C3 (the code at the failing input): on the example of the doc comment of Pack.h 69-75,
`filtered_pack<is_not_double, double, int, char, float*, double, char*, double>` is
`pack<double, double, double>`: it holds `double` and nothing else, where the doc comment
announces a pack excluding `double` and the types that match `is_not_double` are
`int, char, float*, char*`. -/
theorem filtered_pack_doc_example_keeps_double :
    filtered_pack is_not_double
        [Ty.double, Ty.int, Ty.char, Ty.pointer Ty.float, Ty.double, Ty.pointer Ty.char,
          Ty.double]
      = [Ty.double, Ty.double, Ty.double] ∧
    List.filter is_not_double
        [Ty.double, Ty.int, Ty.char, Ty.pointer Ty.float, Ty.double, Ty.pointer Ty.char,
          Ty.double]
      = [Ty.int, Ty.char, Ty.pointer Ty.float, Ty.pointer Ty.char] ∧
    filtered_pack is_not_double
        [Ty.double, Ty.int, Ty.char, Ty.pointer Ty.float, Ty.double, Ty.pointer Ty.char,
          Ty.double]
      ≠ List.filter is_not_double
        [Ty.double, Ty.int, Ty.char, Ty.pointer Ty.float, Ty.double, Ty.pointer Ty.char,
          Ty.double] := by
  decide

/-- What the body of `filter_pack` computes on every input, against its doc comment
(Pack.h 182, "Select only the items of a pack which match Condition"): the types of `Ts` that
do not match `Condition`, in their original order. -/
theorem filtered_pack_removes_matching (Condition : Ty → Bool) (Ts : Pack) :
    filtered_pack Condition Ts = Ts.filter (fun T => !Condition T) ∧
    ∀ T, T ∈ filtered_pack Condition Ts ↔ T ∈ Ts ∧ Condition T = false := by
  refine ⟨filtered_pack_eq Condition Ts, fun T => ?_⟩
  rw [filtered_pack_eq]
  simp [List.mem_filter]

/-! ## Lemmas on the view layer -/

theorem range_filterMap_getElem {β γ : Type} (g : β → Option γ) (l : List β) :
    (List.range l.length).filterMap (fun k => (l[k]?).bind g) = l.filterMap g := by
  induction l with
  | nil => rfl
  | cons a l ih =>
    rw [List.length_cons, List.range_succ_eq_map, List.filterMap_cons, List.filterMap_map]
    cases hg : g a with
    | none => simpa [hg, Function.comp_def] using ih
    | some c => simpa [hg, Function.comp_def] using ih

theorem filter_filterMap {β γ : Type} (g : β → Option γ) (p : γ → Bool) (c : β → Bool)
    (hc : ∀ k, c k = true ↔ ∃ r, g k = some r ∧ p r = true) (l : List β) :
    (l.filter c).filterMap g = (l.filterMap g).filter p ∧
    (l.filter c).length = ((l.filterMap g).filter p).length := by
  induction l with
  | nil => exact ⟨rfl, rfl⟩
  | cons a l ih =>
    have ha := hc a
    cases hg : g a with
    | none =>
      have hca : c a = false := by
        cases h : c a with
        | false => rfl
        | true => simp [hg, h] at ha
      simp [List.filter_cons, hg, hca, ih.1, ih.2]
    | some r =>
      cases hp : p r with
      | false =>
        have hca : c a = false := by
          cases h : c a with
          | false => rfl
          | true => simp [hg, hp, h] at ha
        simp [List.filter_cons, hg, hca, hp, ih.1, ih.2]
      | true =>
        have hca : c a = true := ha.2 ⟨r, hg, hp⟩
        simp [List.filter_cons, hg, hca, hp, ih.1, ih.2]

theorem createSelection_spec {α : Type} (v : View α) (P : α → Bool) (k : Nat) :
    (match v.rowAt k with
      | some row => P row.values
      | none => false) = true ↔ ∃ r, v.rowAt k = some r ∧ P r.values = true := by
  cases h : v.rowAt k with
  | none => simp
  | some r => simp

theorem View.iterate_filtered {α : Type} (w : View α) (selection : List Nat) :
    (View.filtered w selection).iterate = selection.filterMap w.rowAt := by
  simp only [View.iterate, View.size]
  exact range_filterMap_getElem w.rowAt selection

theorem iterate_Filtered {α : Type} (v : View α) (P : α → Bool) :
    (Filtered v P).iterate = v.iterate.filter fun r => P r.values := by
  rw [Filtered, View.iterate_filtered]
  exact (filter_filterMap v.rowAt (fun r => P r.values) _ (createSelection_spec v P)
    (List.range v.size)).1

theorem size_Filtered {α : Type} (v : View α) (P : α → Bool) :
    (Filtered v P).size = (v.iterate.filter fun r => P r.values).length := by
  show (createSelection v P).length = _
  exact (filter_filterMap v.rowAt (fun r => P r.values) _ (createSelection_spec v P)
    (List.range v.size)).2

theorem range'_filterMap_enumFrom {α γ : Type} (f : Nat → α → γ) (l : List α) (n : Nat) :
    (List.range' n l.length).filterMap (fun k => (l[k - n]?).map (f k))
      = (l.enumFrom n).map fun q => f q.1 q.2 := by
  induction l generalizing n with
  | nil => rfl
  | cons a l ih =>
    rw [List.length_cons, List.range'_succ, List.filterMap_cons]
    simp only [Nat.sub_self, List.getElem?_cons_zero, Option.map_some', List.enumFrom_cons,
      List.map_cons]
    rw [← ih (n + 1)]
    congr 1
    apply List.filterMap_congr
    intro k hk
    have hk' : n + 1 ≤ k := (List.mem_range'_1.1 hk).1
    have : k - n = (k - (n + 1)) + 1 := by omega
    rw [this, List.getElem?_cons_succ]

theorem View.iterate_table {α : Type} (T : List α) :
    (View.table T).iterate = T.enum.map fun q => ⟨q.1, q.2⟩ := by
  have h := range'_filterMap_enumFrom (fun k (r : α) => (⟨k, r⟩ : RowAccessor α)) T 0
  simpa [View.iterate, View.size, View.rowAt, List.range_eq_range', List.enum] using h

theorem View.rowAt_innermost {α : Type} (v : View α) (k : Nat) (r : RowAccessor α)
    (h : v.rowAt k = some r) : (v.innermost)[r.index]? = some r.values := by
  induction v generalizing k with
  | table rows =>
    simp only [View.rowAt, Option.map_eq_some'] at h
    obtain ⟨a, ha, rfl⟩ := h
    simpa [View.innermost] using ha
  | filtered w selection ih =>
    simp only [View.rowAt, Option.bind_eq_some] at h
    obtain ⟨i, _, hi⟩ := h
    exact ih i hi

theorem View.iterate_innermost {α : Type} (v : View α) (r : RowAccessor α)
    (h : r ∈ v.iterate) : (v.innermost)[r.index]? = some r.values := by
  simp only [View.iterate, List.mem_filterMap] at h
  obtain ⟨k, _, hk⟩ := h
  exact View.rowAt_innermost v k r hk

theorem enum_filter_length {α : Type} (P : α → Bool) (T : List α) :
    (T.enum.filter fun q => P q.2).length = T.countP P := by
  rw [← List.countP_eq_length_filter]
  conv_rhs => rw [← List.enum_map_snd T, List.countP_map]
  rfl

/-! ## Claims on the view layer -/

/-- C4: a partition with predicate `P` bound to a table `T` has as `size()` the number of rows
of `T` that satisfy `P`, and iterating it yields exactly those rows, in increasing order of
their position in `T`, each with its own values and with `index()` equal to its position.  On
the table of the test, `x < 4` gives size 4 and the rows `(0,8), (1,9), (2,10), (3,11)` with
indices `0, 1, 2, 3`. -/
theorem partition_bound_to_table {α : Type} (T : List α) (P : α → Bool) :
    ((Partition.declare P).bindTable (View.table T)).size = Except.ok (T.countP P) ∧
    ((Partition.declare P).bindTable (View.table T)).iterate
      = Except.ok ((T.enum.filter fun q => P q.2).map fun q => ⟨q.1, q.2⟩) ∧
    p1.size = Except.ok 4 ∧
    p1.iterate = Except.ok [⟨0, ⟨0, 8⟩⟩, ⟨1, ⟨1, 9⟩⟩, ⟨2, ⟨2, 10⟩⟩, ⟨3, ⟨3, 11⟩⟩] := by
  have hit : (Filtered (View.table T) P).iterate
      = (T.enum.filter fun q => P q.2).map fun q => ⟨q.1, q.2⟩ := by
    rw [iterate_Filtered, View.iterate_table, List.filter_map]
    rfl
  refine ⟨?_, ?_, rfl, rfl⟩
  · show Except.ok (Filtered (View.table T) P).size = _
    rw [size_Filtered, ← iterate_Filtered, hit, List.length_map, enum_filter_length]
  · show Except.ok (Filtered (View.table T) P).iterate = _
    rw [hit]

/-- C5: a partition with predicate `P` bound to a view `F` (a table, a filtered view, or a
filtered view of a filtered view, to any depth) yields exactly the rows of `F` that satisfy
`P`, in the order of `F`, its `size()` is their number, and every row that `F` yields reports
as `index()` the position of that row in the innermost table.  On the test: the selection
vector of `x < 4` is `[0, 1, 2, 3]`; `y > 9` on that view gives the rows `(2,10), (3,11)` with
indices `2, 3`, which are at positions `0, 1` of the new selection; `x < 3` on the result
gives the single row `(2,10)` with index `2`. -/
theorem partition_bound_to_view {α : Type} (F : View α) (P : α → Bool) :
    ((Partition.declare P).bindTable F).iterate
      = Except.ok (F.iterate.filter fun r => P r.values) ∧
    ((Partition.declare P).bindTable F).size
      = Except.ok (F.iterate.filter fun r => P r.values).length ∧
    (∀ r ∈ F.iterate, (F.innermost)[r.index]? = some r.values) ∧
    filteredA = View.filtered (View.table tableA) [0, 1, 2, 3] ∧
    p2.size = Except.ok 2 ∧
    p2.iterate = Except.ok [⟨2, ⟨2, 10⟩⟩, ⟨3, ⟨3, 11⟩⟩] ∧
    p2.mFiltered = some p2Filtered ∧
    p2Filtered = View.filtered filteredA [2, 3] ∧
    p3.size = Except.ok 1 ∧
    p3.iterate = Except.ok [⟨2, ⟨2, 10⟩⟩] ∧
    p3.mFiltered = some (View.filtered p2Filtered [0]) := by
  refine ⟨?_, ?_, fun r hr => View.iterate_innermost F r hr, rfl, rfl, rfl, rfl, rfl, rfl, rfl,
    rfl⟩
  · show Except.ok (Filtered F P).iterate = _
    rw [iterate_Filtered]
  · show Except.ok (Filtered F P).size = _
    rw [size_Filtered]

/-- C6: over a table `T`, the view `Filtered(Filtered(T, P1), P2)`, whose selection vector
indexes the rows of the inner view, yields the same rows with the same global indices, in the
same order, as the single-pass view `Filtered(T, P1 and P2)`. -/
theorem filtered_composition {α : Type} (T : List α) (P1 P2 : α → Bool) :
    (Filtered (Filtered (View.table T) P1) P2).iterate.map RowAccessor.index
      = (Filtered (View.table T) fun r => P1 r && P2 r).iterate.map RowAccessor.index ∧
    (Filtered (Filtered (View.table T) P1) P2).iterate
      = (Filtered (View.table T) fun r => P1 r && P2 r).iterate ∧
    (Filtered (Filtered (View.table T) P1) P2).size
      = (Filtered (View.table T) fun r => P1 r && P2 r).size := by
  have h : (Filtered (Filtered (View.table T) P1) P2).iterate
      = (Filtered (View.table T) fun r => P1 r && P2 r).iterate := by
    rw [iterate_Filtered, iterate_Filtered, iterate_Filtered, List.filter_filter]
    apply List.filter_congr
    intro r _
    exact Bool.and_comm _ _
  refine ⟨by rw [h], h, ?_⟩
  have h2 := congrArg List.length h
  rw [iterate_Filtered _ P2, iterate_Filtered (View.table T) fun r => P1 r && P2 r] at h2
  rw [size_Filtered, size_Filtered]
  exact h2

/-! ## Lemmas on the binding resolver -/

theorem assignNames_forall₂ (suffix : Nat → String) (seen : List String)
    (l : List (Nat × String)) :
    List.Forall₂ (fun inp q => inp.binding = q.2 ∨ inp.binding = q.2 ++ suffix q.1)
      (assignNames suffix seen l) l := by
  induction l generalizing seen with
  | nil => exact List.Forall₂.nil
  | cons q rest ih =>
    obtain ⟨i, lbl⟩ := q
    refine List.Forall₂.cons ?_ (ih (lbl :: seen))
    by_cases h : lbl ∈ seen
    · simp [h]
    · simp [h]

theorem assignNames_length (suffix : Nat → String) (seen : List String)
    (l : List (Nat × String)) : (assignNames suffix seen l).length = l.length :=
  (assignNames_forall₂ suffix seen l).length_eq

theorem assignNames_append (suffix : Nat → String) (seen : List String)
    (l₁ l₂ : List (Nat × String)) :
    assignNames suffix seen (l₁ ++ l₂)
      = assignNames suffix seen l₁
          ++ assignNames suffix ((l₁.map Prod.snd).reverse ++ seen) l₂ := by
  induction l₁ generalizing seen with
  | nil => rfl
  | cons q rest ih =>
    obtain ⟨i, lbl⟩ := q
    simp [assignNames, ih (lbl :: seen)]

theorem resolveFrom_index (i : Nat) (process : List Requirement) (q : Nat × String)
    (h : q ∈ resolveFrom i process) : i ≤ q.1 := by
  induction process generalizing i with
  | nil => simp [resolveFrom] at h
  | cons r rest ih =>
    simp only [resolveFrom, List.mem_append, List.mem_map] at h
    rcases h with ⟨l, _, rfl⟩ | h
    · exact Nat.le_refl i
    · exact Nat.le_of_succ_le (ih (i + 1) h)

theorem resolveFrom_sorted (i : Nat) (process : List Requirement) :
    ((resolveFrom i process).map Prod.fst).Pairwise (fun a b => a ≤ b) := by
  induction process generalizing i with
  | nil => simp [resolveFrom]
  | cons r rest ih =>
    simp only [resolveFrom, List.map_append, List.map_map]
    rw [List.pairwise_append]
    refine ⟨?_, ih (i + 1), ?_⟩
    · rw [List.pairwise_map]
      exact List.pairwise_of_forall (fun _ _ => Nat.le_refl i)
    · intro a ha b hb
      simp only [List.mem_map, Function.comp] at ha hb
      obtain ⟨_, _, rfl⟩ := ha
      obtain ⟨q, hq, rfl⟩ := hb
      exact Nat.le_of_succ_le (resolveFrom_index (i + 1) rest q hq)

theorem resolveFrom_of_requirement (i k : Nat) (process : List Requirement) (r : Requirement)
    (h : process[k]? = some r) :
    ((resolveFrom i process).filter fun q => decide (q.1 = i + k)).map Prod.snd = r.labels := by
  induction process generalizing i k with
  | nil => simp at h
  | cons r' rest ih =>
    have hlater : (resolveFrom (i + 1) rest).filter (fun q => decide (q.1 = i)) = [] := by
      rw [List.filter_eq_nil_iff]
      intro q hq
      have := resolveFrom_index (i + 1) rest q hq
      simp only [decide_eq_true_eq]
      omega
    cases k with
    | zero =>
      simp only [List.getElem?_cons_zero, Option.some.injEq] at h
      subst h
      simp [resolveFrom, List.filter_append, hlater, List.filter_map, Function.comp_def]
    | succ k =>
      simp only [List.getElem?_cons_succ] at h
      have hih := ih (i + 1) k h
      have hnow : (List.map (fun l => (i, l)) r'.labels).filter
          (fun q => decide (q.1 = i + (k + 1))) = [] := by
        rw [List.filter_eq_nil_iff]
        intro q hq
        simp only [List.mem_map] at hq
        obtain ⟨_, _, rfl⟩ := hq
        simp
      have he : i + 1 + k = i + (k + 1) := by omega
      rw [he] at hih
      simp only [resolveFrom, List.filter_append, hnow, List.nil_append]
      exact hih

theorem tableDecl_labels_length (t : TableDecl) :
    t.labels.length = if t.extended then 2 else 1 := by
  unfold TableDecl.labels
  split <;> rfl

theorem requirement_labels_length (r : Requirement) :
    r.labels.length = (r.tables.map fun t => if t.extended then 2 else 1).sum := by
  unfold Requirement.labels
  induction r.tables with
  | nil => rfl
  | cons t ts ih => simp [List.flatMap_cons, tableDecl_labels_length, ih]

theorem resolveFrom_length (i : Nat) (process : List Requirement) :
    (resolveFrom i process).length
      = (process.map fun r => (r.tables.map fun t => if t.extended then 2 else 1).sum).sum := by
  induction process generalizing i with
  | nil => rfl
  | cons r rest ih => simp [resolveFrom, requirement_labels_length, ih (i + 1)]

theorem resolveFrom_split (i : Nat) (process : List Requirement) (r : Requirement)
    (h : r ∈ process) :
    ∃ pre post k, resolveFrom i process = pre ++ (r.labels.map fun l => (k, l)) ++ post := by
  induction process generalizing i with
  | nil => simp at h
  | cons r' rest ih =>
    rcases List.mem_cons.1 h with rfl | h
    · exact ⟨[], resolveFrom (i + 1) rest, i, by simp [resolveFrom]⟩
    · obtain ⟨pre, post, k, hk⟩ := ih (i + 1) h
      exact ⟨(r'.labels.map fun l => (i, l)) ++ pre, post, k, by simp [resolveFrom, hk]⟩

theorem Requirement.labels_split (r : Requirement) (t : TableDecl) (h : t ∈ r.tables) :
    ∃ before after, r.labels = before ++ t.labels ++ after := by
  obtain ⟨ts₁, ts₂, hts⟩ := List.append_of_mem h
  exact ⟨ts₁.flatMap TableDecl.labels, ts₂.flatMap TableDecl.labels, by
    simp [Requirement.labels, hts, List.flatMap_append, List.flatMap_cons]⟩

theorem assignNames_head (suffix : Nat → String) (seen : List String) (i : Nat)
    (l : String) (rest : List (Nat × String)) :
    ∃ b, assignNames suffix seen ((i, l) :: rest) = b :: assignNames suffix (l :: seen) rest ∧
      (b.binding = l ∨ b.binding = l ++ suffix i) := by
  by_cases h : l ∈ seen
  · exact ⟨⟨l ++ suffix i⟩, by simp [assignNames, h], Or.inr rfl⟩
  · exact ⟨⟨l⟩, by simp [assignNames, h], Or.inl rfl⟩

/-! ## Claims on the binding resolver -/

/-- C7: the input bindings of a consumer follow the declaration order of its requirements.
Binding `k` is named after entry `k` of the resolved list (its label, with the positional
suffix when the label is repeated); along the resolved list the positions of the requirements
never decrease, so every binding of an earlier requirement precedes every binding of a later
one; and the entries of requirement `k` are the labels of its constituent tables in the order
in which the requirement (a join) lists them.  `BTask` and `GTask` of the test resolve to the
lists that the test asserts. -/
theorem adaptAnalysisTask_declaration_order (suffix : Nat → String)
    (process : List Requirement) :
    List.Forall₂ (fun inp q => inp.binding = q.2 ∨ inp.binding = q.2 ++ suffix q.1)
      (adaptAnalysisTask suffix process) (resolveFrom 0 process) ∧
    ((resolveFrom 0 process).map Prod.fst).Pairwise (fun a b => a ≤ b) ∧
    (∀ k r, process[k]? = some r →
      ((resolveFrom 0 process).filter fun q => decide (q.1 = k)).map Prod.snd
        = r.tables.flatMap TableDecl.labels) ∧
    adaptAnalysisTask suffix BTask
      = [⟨"Collisions_001"⟩, ⟨"Tracks"⟩, ⟨"TracksExtension"⟩, ⟨"TracksExtra"⟩,
         ⟨"TracksExtra_002Extension"⟩, ⟨"TracksCov"⟩, ⟨"TracksCovExtension"⟩,
         ⟨"AmbiguousTracks"⟩, ⟨"Calos"⟩, ⟨"CaloTriggers"⟩] ∧
    adaptAnalysisTask suffix GTask = [⟨"Foos"⟩, ⟨"Bars"⟩, ⟨"XYZ"⟩] := by
  refine ⟨assignNames_forall₂ suffix [] _, resolveFrom_sorted 0 process, ?_, rfl, rfl⟩
  intro k r h
  have := resolveFrom_of_requirement 0 k process r h
  simpa [Requirement.labels] using this

/-- C8 (as stated, refuted): the number of input bindings is not the number of declared
requirements.  `DTask` declares the single requirement `Tracks` and gets 2 bindings, `CTask`
declares 2 requirements and gets 3, `GTask` declares one join and gets 3; these are the sizes
that the test requires. -/
theorem adaptAnalysisTask_not_one_per_requirement :
    DTask.length = 1 ∧ (adaptAnalysisTask decimalSuffix DTask).length = 2 ∧
    CTask.length = 2 ∧ (adaptAnalysisTask decimalSuffix CTask).length = 3 ∧
    GTask.length = 1 ∧ (adaptAnalysisTask decimalSuffix GTask).length = 3 := by
  decide

/-- C8 (amended): for a consumer whose inputs all come from the arguments of `process`, the
resolver outputs one binding for every table that a requirement needs: one for each
constituent table and one more for each constituent that is an extended table.  The number of
input bindings is the sum of these numbers over the declared requirements.  The consumers of
the test with such inputs only have the sizes that the test requires: `ATask` 2, `BTask` 10,
`CTask` 3, `DTask` 2, `ETask` 1, `FTask` 1, `GTask` 3, `HTask` 3, `ITask` 4, `JTask` 1. -/
theorem adaptAnalysisTask_length (suffix : Nat → String) (process : List Requirement) :
    (adaptAnalysisTask suffix process).length
      = (process.map fun r => (r.tables.map fun t => if t.extended then 2 else 1).sum).sum ∧
    adaptAnalysisTask suffix ATask = [⟨"Tracks"⟩, ⟨"TracksExtension"⟩] ∧
    (adaptAnalysisTask suffix BTask).length = 10 ∧
    (adaptAnalysisTask suffix CTask).length = 3 ∧
    (adaptAnalysisTask suffix DTask).length = 2 ∧
    (adaptAnalysisTask suffix ETask).length = 1 ∧
    (adaptAnalysisTask suffix FTask).length = 1 ∧
    (adaptAnalysisTask suffix GTask).length = 3 ∧
    (adaptAnalysisTask suffix HTask).length = 3 ∧
    (adaptAnalysisTask suffix ITask).length = 4 ∧
    (adaptAnalysisTask suffix JTask).length = 1 := by
  refine ⟨?_, rfl, rfl, rfl, rfl, rfl, rfl, rfl, rfl, rfl, rfl⟩
  rw [adaptAnalysisTask, assignNames_length, resolveFrom_length]

/-- C9 (as stated, refuted): the extension of `TracksExtra` is bound as
`TracksExtra_002Extension`, and its base as `TracksExtra`; appending `Extension` to the base
binding name gives `TracksExtraExtension`, another name.  In `BTask` the two bindings are the
inputs 3 and 4, as the test requires. -/
theorem extension_name_not_from_base_binding :
    TracksExtra.labels = ["TracksExtra", "TracksExtra_002Extension"] ∧
    "TracksExtra_002Extension" ≠ "TracksExtra" ++ "Extension" ∧
    (adaptAnalysisTask decimalSuffix BTask)[3]? = some ⟨"TracksExtra"⟩ ∧
    (adaptAnalysisTask decimalSuffix BTask)[4]? = some ⟨"TracksExtra_002Extension"⟩ ∧
    (adaptAnalysisTask decimalSuffix BTask)[4]? ≠ some ⟨"TracksExtra" ++ "Extension"⟩ := by
  decide

theorem assignNames_of_fresh (suffix : Nat → String) (seen : List String)
    (l : List (Nat × String)) (hnd : (l.map Prod.snd).Nodup)
    (hfresh : ∀ x ∈ l.map Prod.snd, x ∉ seen) :
    assignNames suffix seen l = l.map fun q => ⟨q.2⟩ := by
  induction l generalizing seen with
  | nil => rfl
  | cons q rest ih =>
    obtain ⟨i, lbl⟩ := q
    simp only [List.map_cons, List.nodup_cons] at hnd
    have hhead : lbl ∉ seen := hfresh lbl (by simp)
    have htail : ∀ x ∈ rest.map Prod.snd, x ∉ lbl :: seen := by
      intro x hx hmem
      rcases List.mem_cons.1 hmem with h | h
      · exact hnd.1 (h ▸ hx)
      · exact hfresh x (by simp only [List.map_cons]; exact List.mem_cons_of_mem _ hx) h
    simp [assignNames, hhead, ih (lbl :: seen) hnd.2 htail]

theorem string_append_right_cancel (a b c : String) : a ++ c = b ++ c ↔ a = b := by
  constructor
  · intro h
    have hd := congrArg String.data h
    rw [String.data_append, String.data_append] at hd
    exact String.ext (List.append_cancel_right hd)
  · intro h
    rw [h]

/-- C9 (amended): let `t` be an extended table among the constituents of an argument of
`process`, in a consumer whose requirements resolve to pairwise different labels.  The
resolver binds the base table under its label and, directly after it, the extension table,
whose binding name is the declared name of the extended table (which carries the version, as
in `TracksExtra_002`) followed by the fixed suffix `Extension`.  That name is the base binding
name followed by `Extension` if and only if the declared name is the label. -/
theorem extension_binding_name (suffix : Nat → String) (process : List Requirement)
    (r : Requirement) (t : TableDecl) (hr : r ∈ process) (ht : t ∈ r.tables)
    (he : t.extended = true) (hnd : ((resolveFrom 0 process).map Prod.snd).Nodup) :
    (∃ before after, adaptAnalysisTask suffix process
      = before ++ ⟨t.label⟩ :: ⟨t.name ++ "Extension"⟩ :: after) ∧
    (t.name ++ "Extension" = t.label ++ "Extension" ↔ t.name = t.label) := by
  refine ⟨?_, string_append_right_cancel t.name t.label "Extension"⟩
  obtain ⟨pre₀, post₀, i, hres⟩ := resolveFrom_split 0 process r hr
  obtain ⟨before, after, hlab⟩ := Requirement.labels_split r t ht
  have htl : t.labels = [t.label, t.name ++ "Extension"] := by simp [TableDecl.labels, he]
  have hsplit : resolveFrom 0 process
      = (pre₀ ++ before.map fun l => (i, l)) ++ (i, t.label) :: (i, t.name ++ "Extension")
          :: ((after.map fun l => (i, l)) ++ post₀) := by
    rw [hres, hlab, htl]
    simp
  have hnames : adaptAnalysisTask suffix process
      = (resolveFrom 0 process).map fun q => ⟨q.2⟩ :=
    assignNames_of_fresh suffix [] _ hnd (fun x _ h => by simp at h)
  refine ⟨(pre₀ ++ before.map fun l => (i, l)).map (fun q => ⟨q.2⟩),
    ((after.map fun l => (i, l)) ++ post₀).map (fun q => ⟨q.2⟩), ?_⟩
  rw [hnames, hsplit]
  simp

/-- Witness of C9 (amended): `TracksExtra` and `Tracks` in the join of `BTask`, whose ten
labels are pairwise different. -/
theorem extension_binding_name_witness :
    Requirement.join [Tracks, TracksExtra, TracksCov] ∈ BTask ∧
    TracksExtra ∈ (Requirement.join [Tracks, TracksExtra, TracksCov]).tables ∧
    TracksExtra.extended = true ∧
    ((resolveFrom 0 BTask).map Prod.snd).Nodup ∧
    TracksExtra.name ≠ TracksExtra.label ∧
    Tracks.name = Tracks.label ∧
    (∃ before after, adaptAnalysisTask decimalSuffix BTask
      = before ++ ⟨TracksExtra.label⟩ :: ⟨TracksExtra.name ++ "Extension"⟩ :: after) ∧
    (TracksExtra.name ++ "Extension" = TracksExtra.label ++ "Extension"
      ↔ TracksExtra.name = TracksExtra.label) :=
  ⟨List.mem_cons_of_mem _ (List.mem_cons_self _ _), by decide, rfl, by decide, by decide,
    by decide,
    extension_binding_name decimalSuffix BTask (Requirement.join [Tracks, TracksExtra, TracksCov])
      TracksExtra (List.mem_cons_of_mem _ (List.mem_cons_self _ _)) (by decide) rfl
      (by decide)⟩

/-! ## Lemmas on intersection and subtraction -/

theorem has_type_eq_decide (T : Ty) (Us : Pack) : has_type T Us = decide (T ∈ Us) := by
  by_cases h : T ∈ Us
  · simp [h, (has_type_iff T Us).2 h]
  · have hf : has_type T Us = false := by
      cases hb : has_type T Us with
      | false => rfl
      | true => exact absurd ((has_type_iff T Us).1 hb) h
    simp [h, hf]

theorem intersect_pack_of_no_void (S1 S2 : Pack) (h1 : Ty.void ∉ S1) :
    intersect_pack S1 S2 = some (S1.filter fun T => decide (T ∈ S2)) := by
  rw [intersect_pack_eq, filter_not_void (fun T => has_type T S2) S1 h1]
  simp only [has_type_eq_decide]

theorem subtract_pack_of_no_void (S1 S2 : Pack) (h1 : Ty.void ∉ S1) :
    subtract_pack S1 S2 = some (S1.filter fun T => decide (T ∉ S2)) := by
  rw [subtract_pack_eq, filter_not_void (fun T => !has_type T S2) S1 h1]
  simp only [has_type_eq_decide]
  congr 1
  apply List.filter_congr
  intro T _
  by_cases h : T ∈ S2 <;> simp [h]

/-! ## Claims on intersection and subtraction -/

/-- C11: for packs `S1` and `S2` without `void`, `intersected_pack_t<S1, S2>` is well-formed
and is the sublist of `S1`, in the order of `S1`, of exactly the types that also occur in
`S2`; a type occurs in it if and only if it occurs in both packs.  (Only `S1` has to be free
of `void` for this.) -/
theorem intersected_pack_t_sublist (S1 S2 : Pack) (h1 : Ty.void ∉ S1) :
    ∃ I, intersect_pack S1 S2 = some I ∧ intersected_pack S1 S2 = some I ∧
      I = S1.filter (fun T => decide (T ∈ S2)) ∧ I.Sublist S1 ∧
      ∀ T, T ∈ I ↔ T ∈ S1 ∧ T ∈ S2 := by
  refine ⟨_, intersect_pack_of_no_void S1 S2 h1, intersect_pack_of_no_void S1 S2 h1, rfl,
    List.filter_sublist S1, fun T => ?_⟩
  simp [List.mem_filter]

/-- Witness of C11 at `S1 = pack<int, float, char>`, `S2 = pack<char, double, int>`: the
intersection is `pack<int, char>`. -/
theorem intersected_pack_t_sublist_witness :
    Ty.void ∉ ([Ty.int, Ty.float, Ty.char] : Pack) ∧
    intersect_pack [Ty.int, Ty.float, Ty.char] [Ty.char, Ty.double, Ty.int]
      = some [Ty.int, Ty.char] ∧
    ∃ I, intersect_pack [Ty.int, Ty.float, Ty.char] [Ty.char, Ty.double, Ty.int] = some I ∧
      intersected_pack [Ty.int, Ty.float, Ty.char] [Ty.char, Ty.double, Ty.int] = some I ∧
      I = [Ty.int, Ty.float, Ty.char].filter
        (fun T => decide (T ∈ ([Ty.char, Ty.double, Ty.int] : Pack))) ∧
      I.Sublist [Ty.int, Ty.float, Ty.char] ∧
      ∀ T, T ∈ I ↔ T ∈ ([Ty.int, Ty.float, Ty.char] : Pack)
        ∧ T ∈ ([Ty.char, Ty.double, Ty.int] : Pack) :=
  ⟨by decide, by decide,
    intersected_pack_t_sublist [Ty.int, Ty.float, Ty.char] [Ty.char, Ty.double, Ty.int]
      (by decide)⟩

/-- C12: for packs `S1` and `S2` without `void`, `subtract_pack<S1, S2>::type` is well-formed
and is the sublist of `S1`, in the order of `S1`, of exactly the types that do not occur in
`S2`; it shares no type with `S2`, and subtracting `pack<>` gives `S1` back.  (Only `S1` has
to be free of `void` for this.) -/
theorem subtract_pack_sublist (S1 S2 : Pack) (h1 : Ty.void ∉ S1) :
    ∃ D, subtract_pack S1 S2 = some D ∧
      D = S1.filter (fun T => decide (T ∉ S2)) ∧ D.Sublist S1 ∧
      (∀ T, T ∈ D ↔ T ∈ S1 ∧ T ∉ S2) ∧ (∀ T, T ∈ D → T ∉ S2) ∧
      subtract_pack S1 [] = some S1 := by
  refine ⟨_, subtract_pack_of_no_void S1 S2 h1, rfl, List.filter_sublist S1, fun T => ?_,
    fun T hT => ?_, ?_⟩
  · simp [List.mem_filter]
  · simpa using (List.mem_filter.1 hT).2
  · rw [subtract_pack_of_no_void S1 [] h1]
    simp

/-- Witness of C12 at `S1 = pack<int, float, char>`, `S2 = pack<char, double>`: the difference
is `pack<int, float>`. -/
theorem subtract_pack_sublist_witness :
    Ty.void ∉ ([Ty.int, Ty.float, Ty.char] : Pack) ∧
    subtract_pack [Ty.int, Ty.float, Ty.char] [Ty.char, Ty.double] = some [Ty.int, Ty.float] ∧
    ∃ D, subtract_pack [Ty.int, Ty.float, Ty.char] [Ty.char, Ty.double] = some D ∧
      D = [Ty.int, Ty.float, Ty.char].filter
        (fun T => decide (T ∉ ([Ty.char, Ty.double] : Pack))) ∧
      D.Sublist [Ty.int, Ty.float, Ty.char] ∧
      (∀ T, T ∈ D ↔ T ∈ ([Ty.int, Ty.float, Ty.char] : Pack)
        ∧ T ∉ ([Ty.char, Ty.double] : Pack)) ∧
      (∀ T, T ∈ D → T ∉ ([Ty.char, Ty.double] : Pack)) ∧
      subtract_pack [Ty.int, Ty.float, Ty.char] [] = some [Ty.int, Ty.float, Ty.char] :=
  ⟨by decide, by decide,
    subtract_pack_sublist [Ty.int, Ty.float, Ty.char] [Ty.char, Ty.double] (by decide)⟩

/-! ## Lemmas on `prune_voids_pack`, `select_pack` -/

theorem prune_voids_pack_returns_closed (Rs P out : Pack)
    (h : prune_voids_pack.Returns Rs P out) : out = Rs ++ P.filter (fun T => !is_void T) := by
  induction h with
  | base result => simp
  | call hO _ ih =>
    rw [ih]
    cases hO with
    | nonVoid T Ts h => simp [List.filter_cons, h]
    | isVoid V Ts h => simp [List.filter_cons, h]
    | two T1 T2 Ts h =>
      simp only [Bool.and_eq_true] at h
      simp [List.filter_cons, h]
    | four T1 T2 T3 T4 Ts h =>
      simp only [Bool.and_eq_true] at h
      simp [List.filter_cons, h]
    | eight T1 T2 T3 T4 T5 T6 T7 T8 Ts h =>
      simp only [Bool.and_eq_true] at h
      simp [List.filter_cons, h]

theorem not_void_of_not (T : Ty) (h : ¬is_void T = true) : (!is_void T) = true := by
  simpa using h

theorem prune_voids_pack_returns (result P : Pack) :
    prune_voids_pack.Returns result P (prune_voids_pack result P) := by
  induction result, P using prune_voids_pack.induct with
  | case1 result => exact prune_voids_pack.Returns.base result
  | case2 result T h ih =>
    rw [prune_voids_pack, if_pos h]
    exact prune_voids_pack.Returns.call (prune_voids_pack.Overload.isVoid _ _ _ h) ih
  | case3 result T h ih =>
    rw [prune_voids_pack, if_neg h]
    exact prune_voids_pack.Returns.call
      (prune_voids_pack.Overload.nonVoid _ _ _ (not_void_of_not T h)) ih
  | case4 result T1 T2 T3 T4 T5 T6 T7 T8 Ts h ih =>
    rw [prune_voids_pack, if_pos h]
    exact prune_voids_pack.Returns.call (prune_voids_pack.Overload.isVoid _ _ _ h) ih
  | case5 result T1 T2 T3 T4 T5 T6 T7 T8 Ts h h8 ih =>
    rw [prune_voids_pack, if_neg h, if_pos h8]
    refine prune_voids_pack.Returns.call
      (prune_voids_pack.Overload.eight _ _ _ _ _ _ _ _ _ _ ?_) ih
    simp only [Bool.and_eq_true] at h8 ⊢
    simp [not_void_of_not T1 h, h8]
  | case6 result T1 T2 T3 T4 T5 T6 T7 T8 Ts h h8 h4 ih =>
    rw [prune_voids_pack, if_neg h, if_neg h8, if_pos h4]
    refine prune_voids_pack.Returns.call (prune_voids_pack.Overload.four _ _ _ _ _ _ ?_) ih
    simp only [Bool.and_eq_true] at h4 ⊢
    simp [not_void_of_not T1 h, h4]
  | case7 result T1 T2 T3 T4 T5 T6 T7 T8 Ts h h8 h4 h2 ih =>
    rw [prune_voids_pack, if_neg h, if_neg h8, if_neg h4, if_pos h2]
    refine prune_voids_pack.Returns.call (prune_voids_pack.Overload.two _ _ _ _ ?_) ih
    simp [not_void_of_not T1 h, h2]
  | case8 result T1 T2 T3 T4 T5 T6 T7 T8 Ts h h8 h4 h2 ih =>
    rw [prune_voids_pack, if_neg h, if_neg h8, if_neg h4, if_neg h2]
    exact prune_voids_pack.Returns.call
      (prune_voids_pack.Overload.nonVoid _ _ _ (not_void_of_not T1 h)) ih
  | case9 result T1 T2 T3 T4 Ts hlen h ih =>
    rw [prune_voids_pack.eq_4 _ _ _ _ _ _ hlen, if_pos h]
    exact prune_voids_pack.Returns.call (prune_voids_pack.Overload.isVoid _ _ _ h) ih
  | case10 result T1 T2 T3 T4 Ts hlen h h4 ih =>
    rw [prune_voids_pack.eq_4 _ _ _ _ _ _ hlen, if_neg h, if_pos h4]
    refine prune_voids_pack.Returns.call (prune_voids_pack.Overload.four _ _ _ _ _ _ ?_) ih
    simp only [Bool.and_eq_true] at h4 ⊢
    simp [not_void_of_not T1 h, h4]
  | case11 result T1 T2 T3 T4 Ts hlen h h4 h2 ih =>
    rw [prune_voids_pack.eq_4 _ _ _ _ _ _ hlen, if_neg h, if_neg h4, if_pos h2]
    refine prune_voids_pack.Returns.call (prune_voids_pack.Overload.two _ _ _ _ ?_) ih
    simp [not_void_of_not T1 h, h2]
  | case12 result T1 T2 T3 T4 Ts hlen h h4 h2 ih =>
    rw [prune_voids_pack.eq_4 _ _ _ _ _ _ hlen, if_neg h, if_neg h4, if_neg h2]
    exact prune_voids_pack.Returns.call
      (prune_voids_pack.Overload.nonVoid _ _ _ (not_void_of_not T1 h)) ih
  | case13 result T1 T2 Ts hlen8 hlen4 h ih =>
    rw [prune_voids_pack.eq_5 _ _ _ _ hlen8 hlen4, if_pos h]
    exact prune_voids_pack.Returns.call (prune_voids_pack.Overload.isVoid _ _ _ h) ih
  | case14 result T1 T2 Ts hlen8 hlen4 h h2 ih =>
    rw [prune_voids_pack.eq_5 _ _ _ _ hlen8 hlen4, if_neg h, if_pos h2]
    refine prune_voids_pack.Returns.call (prune_voids_pack.Overload.two _ _ _ _ ?_) ih
    simp [not_void_of_not T1 h, h2]
  | case15 result T1 T2 Ts hlen8 hlen4 h h2 ih =>
    rw [prune_voids_pack.eq_5 _ _ _ _ hlen8 hlen4, if_neg h, if_neg h2]
    exact prune_voids_pack.Returns.call
      (prune_voids_pack.Overload.nonVoid _ _ _ (not_void_of_not T1 h)) ih

theorem prune_voids_pack_eq (result P : Pack) :
    prune_voids_pack result P = result ++ P.filter (fun T => !is_void T) :=
  prune_voids_pack_returns_closed result P _ (prune_voids_pack_returns result P)

theorem pruneVoidsOneByOne_eq (P : Pack) :
    pruneVoidsOneByOne P = P.filter (fun T => !is_void T) := by
  induction P with
  | nil => rfl
  | cons T Ts ih =>
    cases h : is_void T <;> simp [pruneVoidsOneByOne, h, ih]

theorem select_pack_eq (Condition : Ty → Pack → Bool) (result P Cs : Pack) :
    select_pack Condition result P Cs = result ++ P.filter (fun T => Condition T Cs) := by
  induction P generalizing result with
  | nil => simp [select_pack]
  | cons T Ts ih =>
    cases h : Condition T Cs <;> simp [select_pack, h, ih, concatenate_pack]

theorem selected_pack_eq (Condition : Ty → Pack → Bool) (Ts : Pack) :
    selected_pack Condition Ts = Ts.filter (fun T => Condition T [] && !is_void T) := by
  rw [selected_pack, prune_voids_pack_eq, with_condition_pack, List.nil_append]
  exact (filtered_pack_eq is_void _).symm.trans (filtered_void_map (fun T => Condition T []) Ts)

/-! ## Claims on `prune_voids_pack`, `select_pack` -/

/-- C13 (as stated, refuted): with `std::is_void` as the condition and `Ts = void, int`, the
type `void` satisfies the condition; `selected_pack_multicondition` keeps it, and
`selected_pack` returns the empty pack, because the `void` that `with_condition_pack` leaves
in place is pruned together with the marks. -/
theorem selected_pack_drops_selected_void :
    selected_pack (fun T _ => is_void T) [Ty.void, Ty.int] = [] ∧
    selected_pack_multicondition (fun T _ => is_void T) [] [Ty.void, Ty.int] = [Ty.void] ∧
    List.filter (fun T => is_void T) [Ty.void, Ty.int] = [Ty.void] ∧
    selected_pack (fun T _ => is_void T) [Ty.void, Ty.int]
      ≠ selected_pack_multicondition (fun T _ => is_void T) [] [Ty.void, Ty.int] := by
  decide

/-- C13 (amended): for every `Condition` and every `Ts`, `selected_pack<Condition, Ts...>` is
the pack of exactly those types of `Ts` that satisfy `Condition` and are not `void`, in their
original order: it is `selected_pack_multicondition<Condition, pack<>, pack<Ts...>>` without
its `void` entries.  The two packs are equal if and only if `Ts` has no `void` that satisfies
`Condition`. -/
theorem selected_pack_selects_non_void (Condition : Ty → Pack → Bool) (Ts : Pack) :
    selected_pack Condition Ts = Ts.filter (fun T => Condition T [] && !is_void T) ∧
    selected_pack Condition Ts
      = (selected_pack_multicondition Condition [] Ts).filter (fun T => !is_void T) ∧
    (selected_pack Condition Ts = selected_pack_multicondition Condition [] Ts
      ↔ ¬(Ty.void ∈ Ts ∧ Condition Ty.void [] = true)) := by
  have hm : selected_pack_multicondition Condition [] Ts
      = Ts.filter (fun T => Condition T []) := by
    rw [selected_pack_multicondition, select_pack_eq, List.nil_append]
  refine ⟨selected_pack_eq Condition Ts, ?_, ?_⟩
  · rw [selected_pack_eq, hm, List.filter_filter]
    apply List.filter_congr
    intro T _
    exact Bool.and_comm _ _
  · rw [selected_pack_eq, hm]
    constructor
    · intro heq hvoid
      have h1 : Ty.void ∈ Ts.filter (fun T => Condition T []) :=
        List.mem_filter.2 ⟨hvoid.1, hvoid.2⟩
      rw [← heq] at h1
      have h2 := (List.mem_filter.1 h1).2
      simp [is_void] at h2
    · intro hno
      apply List.filter_congr
      intro T hT
      cases hv : is_void T with
      | false => simp
      | true =>
        have hT' : T = Ty.void := (is_void_iff T).1 hv
        subst hT'
        have hc : Condition Ty.void [] = false := by
          cases hcv : Condition Ty.void [] with
          | false => rfl
          | true => exact absurd ⟨hT, hcv⟩ hno
        simp [hc]

/-- Example for C13 (amended): `Ts = int, void, double, char` with the condition
`is_not_double`, which `void` satisfies.  `selected_pack` gives `pack<int, char>`,
`selected_pack_multicondition` gives `pack<int, void, char>`. -/
theorem selected_pack_selects_non_void_witness :
    selected_pack (fun T _ => is_not_double T) [Ty.int, Ty.void, Ty.double, Ty.char]
      = [Ty.int, Ty.char] ∧
    selected_pack_multicondition (fun T _ => is_not_double T) []
        [Ty.int, Ty.void, Ty.double, Ty.char]
      = [Ty.int, Ty.void, Ty.char] ∧
    selected_pack (fun T _ => is_not_double T) [Ty.int, Ty.double, Ty.char]
      = selected_pack_multicondition (fun T _ => is_not_double T) []
          [Ty.int, Ty.double, Ty.char] ∧
    selected_pack (fun T _ => is_not_double T) [Ty.int, Ty.void, Ty.double, Ty.char]
      = [Ty.int, Ty.void, Ty.double, Ty.char].filter
          (fun T => is_not_double T && !is_void T) ∧
    selected_pack (fun T _ => is_not_double T) [Ty.int, Ty.void, Ty.double, Ty.char]
      = (selected_pack_multicondition (fun T _ => is_not_double T) []
          [Ty.int, Ty.void, Ty.double, Ty.char]).filter (fun T => !is_void T) ∧
    (selected_pack (fun T _ => is_not_double T) [Ty.int, Ty.void, Ty.double, Ty.char]
        = selected_pack_multicondition (fun T _ => is_not_double T) []
            [Ty.int, Ty.void, Ty.double, Ty.char]
      ↔ ¬(Ty.void ∈ ([Ty.int, Ty.void, Ty.double, Ty.char] : Pack)
          ∧ is_not_double Ty.void = true)) :=
  ⟨by decide, by decide, by decide,
    selected_pack_selects_non_void (fun T _ => is_not_double T)
      [Ty.int, Ty.void, Ty.double, Ty.char]⟩

/-- C14: `selected_pack_multicondition<Condition, pack<Cs...>, P>` is the sublist of `P`, in
the order of `P`, of exactly the types `T` for which `Condition<T, Cs...>` is true; its size
is at most `pack_size(P)`, and it is `P` when the condition holds for every type of `P`. -/
theorem selected_pack_multicondition_sublist (Condition : Ty → Pack → Bool) (Cs P : Pack) :
    selected_pack_multicondition Condition Cs P = P.filter (fun T => Condition T Cs) ∧
    (selected_pack_multicondition Condition Cs P).Sublist P ∧
    (∀ T, T ∈ selected_pack_multicondition Condition Cs P ↔ T ∈ P ∧ Condition T Cs = true) ∧
    pack_size (selected_pack_multicondition Condition Cs P) ≤ pack_size P ∧
    ((∀ T ∈ P, Condition T Cs = true) → selected_pack_multicondition Condition Cs P = P) := by
  have h : selected_pack_multicondition Condition Cs P = P.filter (fun T => Condition T Cs) := by
    rw [selected_pack_multicondition, select_pack_eq, List.nil_append]
  refine ⟨h, ?_, ?_, ?_, ?_⟩
  · rw [h]
    exact List.filter_sublist P
  · intro T
    rw [h, List.mem_filter]
  · rw [h]
    exact List.length_filter_le _ P
  · intro hall
    rw [h]
    exact List.filter_eq_self.2 hall

/-- C17: `prune_voids_pack(pack<>{}, P)` is `P` with every `void` removed and every other
type kept in its original order: it is what the removal one element at a time gives.  This is
the result of the overload that C++ selects at each step, and it is the only result that any
choice of accepting overloads (void-dropping, one, two, four or eight types at a time) can
produce.  Example with a batch of eight: `int, void, T1 .. T9, void, int`. -/
theorem prune_voids_pack_removes_voids (P : Pack) :
    prune_voids_pack [] P = P.filter (fun T => !is_void T) ∧
    prune_voids_pack [] P = pruneVoidsOneByOne P ∧
    prune_voids_pack.Returns [] P (prune_voids_pack [] P) ∧
    (∀ out, prune_voids_pack.Returns [] P out → out = pruneVoidsOneByOne P) ∧
    prune_voids_pack []
        [Ty.int, Ty.void, Ty.named 1, Ty.named 2, Ty.named 3, Ty.named 4, Ty.named 5,
          Ty.named 6, Ty.named 7, Ty.named 8, Ty.named 9, Ty.void, Ty.int]
      = [Ty.int, Ty.named 1, Ty.named 2, Ty.named 3, Ty.named 4, Ty.named 5,
          Ty.named 6, Ty.named 7, Ty.named 8, Ty.named 9, Ty.int] := by
  refine ⟨?_, ?_, prune_voids_pack_returns [] P, fun out hout => ?_, by decide⟩
  · rw [prune_voids_pack_eq, List.nil_append]
  · rw [prune_voids_pack_eq, List.nil_append, pruneVoidsOneByOne_eq]
  · rw [prune_voids_pack_returns_closed [] P out hout, List.nil_append, pruneVoidsOneByOne_eq]

/-! ## Lemmas on `concatenate_pack_unique` and `unique_pack` -/

theorem concatenate_pack_unique_of_no_void (A B : Pack) (hv : Ty.void ∉ A) :
    concatenate_pack_unique A B = some (A.filter (fun T => decide (T ∉ B)) ++ B) := by
  simp [concatenate_pack_unique, subtract_pack_of_no_void A B hv, concatenate_pack]

theorem nodup_subtract_append (A B : Pack) (hA : A.Nodup) (hB : B.Nodup) :
    (A.filter (fun T => decide (T ∉ B)) ++ B).Nodup := by
  rw [List.nodup_append]
  refine ⟨hA.filter _, hB, ?_⟩
  intro T hT hTB
  have := (List.mem_filter.1 hT).2
  simp [hTB] at this

theorem mem_subtract_append (A B : Pack) (T : Ty) :
    T ∈ A.filter (fun T => decide (T ∉ B)) ++ B ↔ T ∈ A ∨ T ∈ B := by
  by_cases h : T ∈ B <;> simp [List.mem_filter, h]

theorem concatenated_pack_unique_t_spec (Ps : List Pack) (hne : Ps ≠ [])
    (h : ∀ P ∈ Ps, P.Nodup ∧ Ty.void ∉ P) :
    ∃ U, concatenated_pack_unique_t Ps = some U ∧ U.Nodup ∧
      ∀ T, T ∈ U ↔ ∃ P ∈ Ps, T ∈ P := by
  induction Ps with
  | nil => exact absurd rfl hne
  | cons P1 rest ih =>
    cases rest with
    | nil =>
      exact ⟨P1, rfl, (h P1 (List.mem_cons_self _ _)).1, fun T => by simp⟩
    | cons P2 Ps =>
      obtain ⟨U, hU, hnd, hmem⟩ := ih (List.cons_ne_nil _ _)
        (fun P hP => h P (List.mem_cons_of_mem _ hP))
      have h1 := h P1 (List.mem_cons_self _ _)
      refine ⟨P1.filter (fun T => decide (T ∉ U)) ++ U, ?_, nodup_subtract_append P1 U h1.1 hnd,
        fun T => ?_⟩
      · rw [concatenated_pack_unique_t, hU, Option.some_bind,
          concatenate_pack_unique_of_no_void P1 U h1.2]
      · rw [mem_subtract_append, hmem]
        simp

theorem dedupKeepFirst_filter (p : Ty → Bool) (L : Pack) :
    dedupKeepFirst (L.filter p) = (dedupKeepFirst L).filter p := by
  induction L with
  | nil => rfl
  | cons a L ih =>
    cases hp : p a with
    | true =>
      simp only [List.filter_cons, hp, if_true, dedupKeepFirst, ih, List.filter_filter]
      congr 1
      apply List.filter_congr
      intro x _
      exact Bool.and_comm _ _
    | false =>
      have h1 : (a :: L).filter p = L.filter p := by simp [List.filter_cons, hp]
      rw [h1, ih, dedupKeepFirst, List.filter_cons]
      simp only [hp, Bool.false_eq_true, if_false]
      rw [List.filter_filter]
      apply List.filter_congr
      intro x _
      by_cases hx : x = a
      · subst hx
        simp [hp]
      · simp [hx]

theorem mem_dedupKeepFirst (L : Pack) (T : Ty) : T ∈ dedupKeepFirst L ↔ T ∈ L := by
  induction L with
  | nil => simp [dedupKeepFirst]
  | cons a L ih =>
    by_cases h : T = a
    · simp [dedupKeepFirst, h]
    · simp [dedupKeepFirst, List.mem_filter, ih, h]

theorem nodup_dedupKeepFirst (L : Pack) : (dedupKeepFirst L).Nodup := by
  induction L with
  | nil => simp [dedupKeepFirst]
  | cons a L ih =>
    simp only [dedupKeepFirst, List.nodup_cons]
    exact ⟨by simp [List.mem_filter], ih.filter _⟩

theorem dedupKeepFirst_of_nodup (L : Pack) (h : L.Nodup) : dedupKeepFirst L = L := by
  induction L with
  | nil => rfl
  | cons a L ih =>
    have hc := List.nodup_cons.1 h
    simp only [dedupKeepFirst, ih hc.2]
    congr 1
    apply List.filter_eq_self.2
    intro x hx
    have : x ≠ a := fun hxa => hc.1 (hxa ▸ hx)
    simpa using this

theorem unique_pack_closed (P acc : Pack) (hv : Ty.void ∉ P) :
    unique_pack P acc
      = some ((dedupKeepFirst (P.filter fun T => decide (T ∉ acc))).reverse ++ acc) := by
  induction P generalizing acc with
  | nil => simp [unique_pack, dedupKeepFirst]
  | cons T Ts ih =>
    have hT : Ty.void ∉ [T] := by
      intro h
      exact hv (by simp at h; simp [h])
    have hTs : Ty.void ∉ Ts := fun h => hv (List.mem_cons_of_mem _ h)
    rw [unique_pack, concatenate_pack_unique_of_no_void [T] acc hT, Option.some_bind, ih _ hTs]
    by_cases hmem : T ∈ acc
    · simp [hmem]
    · have hfilter : Ts.filter (fun U => decide (U ∉ T :: acc))
          = (Ts.filter fun U => decide (U ∉ acc)).filter fun U => decide (U ≠ T) := by
        rw [List.filter_filter]
        apply List.filter_congr
        intro x _
        by_cases hx : x = T <;> simp [hx]
      simp only [List.filter_cons, hmem, not_false_eq_true, decide_True, if_true,
        List.filter_nil, List.singleton_append, dedupKeepFirst, List.reverse_cons,
        List.append_assoc]
      rw [hfilter, dedupKeepFirst_filter]

theorem unique_pack_t_eq (P : Pack) (hv : Ty.void ∉ P) :
    unique_pack_t P = some (dedupKeepFirst P).reverse := by
  rw [unique_pack_t, unique_pack_closed P [] hv]
  simp

theorem reverse_ne_self_of_nodup (D : Pack) (hnd : D.Nodup) (a b : Ty) (ha : a ∈ D)
    (hb : b ∈ D) (hab : a ≠ b) : D ≠ D.reverse := by
  intro heq
  cases D with
  | nil => simp at ha
  | cons x rest =>
    have hc := List.nodup_cons.1 hnd
    have hrest : rest ≠ [] := by
      intro hr
      subst hr
      simp at ha hb
      exact hab (ha.trans hb.symm)
    obtain ⟨y, rest', rfl⟩ := List.exists_cons_of_ne_nil hrest
    have hhead := congrArg List.head? heq
    rw [List.head?_reverse, List.head?_cons, List.getLast?_cons_cons] at hhead
    exact hc.1 (List.mem_of_getLast?_eq_some hhead.symm)

/-! ## Claims on `concatenate_pack_unique` and `unique_pack` -/

/-- C18: for packs `A` and `B` without `void` and without repeated type,
`concatenate_pack_unique(A, B)` is well-formed, has no repeated type, and a type occurs in it
if and only if it occurs in `A` or in `B`.  The same holds for the variadic form over one or
more such packs: the result has no repeated type and holds exactly the types of the
arguments.  (For two packs only `A` has to be free of `void`.) -/
theorem concatenate_pack_unique_nodup (A B : Pack) (hA : A.Nodup) (hB : B.Nodup)
    (hvA : Ty.void ∉ A) :
    (∃ U, concatenate_pack_unique A B = some U ∧ concatenated_pack_unique_t [A, B] = some U ∧
      U.Nodup ∧ ∀ T, T ∈ U ↔ T ∈ A ∨ T ∈ B) ∧
    (∀ Ps : List Pack, Ps ≠ [] → (∀ P ∈ Ps, P.Nodup ∧ Ty.void ∉ P) →
      ∃ U, concatenated_pack_unique_t Ps = some U ∧ U.Nodup ∧
        ∀ T, T ∈ U ↔ ∃ P ∈ Ps, T ∈ P) := by
  refine ⟨⟨A.filter (fun T => decide (T ∉ B)) ++ B, concatenate_pack_unique_of_no_void A B hvA,
    ?_, nodup_subtract_append A B hA hB, mem_subtract_append A B⟩,
    fun Ps hne h => concatenated_pack_unique_t_spec Ps hne h⟩
  simp [concatenated_pack_unique_t, concatenate_pack_unique_of_no_void A B hvA]

/-- Witness of C18 at `A = pack<int, float>`, `B = pack<double, int>`. -/
theorem concatenate_pack_unique_nodup_witness :
    ([Ty.int, Ty.float] : Pack).Nodup ∧ ([Ty.double, Ty.int] : Pack).Nodup ∧
    Ty.void ∉ ([Ty.int, Ty.float] : Pack) ∧
    concatenated_pack_unique_t [[Ty.int, Ty.float], [Ty.float, Ty.double],
        [Ty.double, Ty.char, Ty.int]]
      = some [Ty.float, Ty.double, Ty.char, Ty.int] ∧
    (∃ U, concatenate_pack_unique [Ty.int, Ty.float] [Ty.double, Ty.int] = some U ∧
      concatenated_pack_unique_t [[Ty.int, Ty.float], [Ty.double, Ty.int]] = some U ∧
      U.Nodup ∧
      ∀ T, T ∈ U ↔ T ∈ ([Ty.int, Ty.float] : Pack) ∨ T ∈ ([Ty.double, Ty.int] : Pack)) ∧
    (∀ Ps : List Pack, Ps ≠ [] → (∀ P ∈ Ps, P.Nodup ∧ Ty.void ∉ P) →
      ∃ U, concatenated_pack_unique_t Ps = some U ∧ U.Nodup ∧
        ∀ T, T ∈ U ↔ ∃ P ∈ Ps, T ∈ P) :=
  ⟨by decide, by decide, by decide, by decide,
    concatenate_pack_unique_nodup [Ty.int, Ty.float] [Ty.double, Ty.int]
      (by decide) (by decide) (by decide)⟩

/-- C19: for a pack `P` without `void`, repetitions allowed, `unique_pack_t<P>` is
well-formed, has no repeated type, and a type occurs in it if and only if it occurs in `P`. -/
theorem unique_pack_t_nodup (P : Pack) (hv : Ty.void ∉ P) :
    ∃ U, unique_pack_t P = some U ∧ U.Nodup ∧ ∀ T, T ∈ U ↔ T ∈ P := by
  refine ⟨_, unique_pack_t_eq P hv, List.nodup_reverse.2 (nodup_dedupKeepFirst P), fun T => ?_⟩
  rw [List.mem_reverse, mem_dedupKeepFirst]

/-- Witness of C19 at `P = pack<int, float, int, double>`: the result is
`pack<double, float, int>`. -/
theorem unique_pack_t_nodup_witness :
    Ty.void ∉ ([Ty.int, Ty.float, Ty.int, Ty.double] : Pack) ∧
    unique_pack_t [Ty.int, Ty.float, Ty.int, Ty.double]
      = some [Ty.double, Ty.float, Ty.int] ∧
    ∃ U, unique_pack_t [Ty.int, Ty.float, Ty.int, Ty.double] = some U ∧ U.Nodup ∧
      ∀ T, T ∈ U ↔ T ∈ ([Ty.int, Ty.float, Ty.int, Ty.double] : Pack) :=
  ⟨by decide, by decide,
    unique_pack_t_nodup [Ty.int, Ty.float, Ty.int, Ty.double] (by decide)⟩

/-- C20: for a pack `P` without `void`, `unique_pack_t<P>` lists the distinct types of `P` in
the reverse of their order of first occurrence; for a duplicate-free `P` it is `P` reversed;
and when `P` has at least two distinct types, applying `unique_pack_t` twice gives the types
in their order of first occurrence, which is not the pack that one application gives. -/
theorem unique_pack_t_reverses (P : Pack) (hv : Ty.void ∉ P) :
    unique_pack_t P = some (dedupKeepFirst P).reverse ∧
    (P.Nodup → unique_pack_t P = some P.reverse) ∧
    ((∃ a b, a ∈ P ∧ b ∈ P ∧ a ≠ b) →
      (unique_pack_t P).bind unique_pack_t = some (dedupKeepFirst P) ∧
      (unique_pack_t P).bind unique_pack_t ≠ unique_pack_t P) := by
  have h1 := unique_pack_t_eq P hv
  have hv2 : Ty.void ∉ (dedupKeepFirst P).reverse := by
    rw [List.mem_reverse, mem_dedupKeepFirst]
    exact hv
  have h2 : (unique_pack_t P).bind unique_pack_t = some (dedupKeepFirst P) := by
    rw [h1, Option.some_bind, unique_pack_t_eq _ hv2,
      dedupKeepFirst_of_nodup _ (List.nodup_reverse.2 (nodup_dedupKeepFirst P)),
      List.reverse_reverse]
  refine ⟨h1, fun hnd => ?_, fun hab => ⟨h2, ?_⟩⟩
  · rw [h1, dedupKeepFirst_of_nodup P hnd]
  · obtain ⟨a, b, ha, hb, hne⟩ := hab
    rw [h2, h1]
    intro heq
    exact reverse_ne_self_of_nodup (dedupKeepFirst P) (nodup_dedupKeepFirst P) a b
      ((mem_dedupKeepFirst P a).2 ha) ((mem_dedupKeepFirst P b).2 hb) hne
      (Option.some.inj heq)

/-- Witness of C20 at `P = pack<int, float, int, double>`: one application gives
`pack<double, float, int>`, two give `pack<int, float, double>`. -/
theorem unique_pack_t_reverses_witness :
    Ty.void ∉ ([Ty.int, Ty.float, Ty.int, Ty.double] : Pack) ∧
    (unique_pack_t [Ty.int, Ty.float, Ty.int, Ty.double]).bind unique_pack_t
      = some [Ty.int, Ty.float, Ty.double] ∧
    unique_pack_t [Ty.int, Ty.float, Ty.double] = some [Ty.double, Ty.float, Ty.int] ∧
    unique_pack_t [Ty.int, Ty.float, Ty.int, Ty.double]
      = some (dedupKeepFirst [Ty.int, Ty.float, Ty.int, Ty.double]).reverse ∧
    (([Ty.int, Ty.float, Ty.int, Ty.double] : Pack).Nodup →
      unique_pack_t [Ty.int, Ty.float, Ty.int, Ty.double]
        = some ([Ty.int, Ty.float, Ty.int, Ty.double] : Pack).reverse) ∧
    ((∃ a b, a ∈ ([Ty.int, Ty.float, Ty.int, Ty.double] : Pack) ∧
        b ∈ ([Ty.int, Ty.float, Ty.int, Ty.double] : Pack) ∧ a ≠ b) →
      (unique_pack_t [Ty.int, Ty.float, Ty.int, Ty.double]).bind unique_pack_t
        = some (dedupKeepFirst [Ty.int, Ty.float, Ty.int, Ty.double]) ∧
      (unique_pack_t [Ty.int, Ty.float, Ty.int, Ty.double]).bind unique_pack_t
        ≠ unique_pack_t [Ty.int, Ty.float, Ty.int, Ty.double]) :=
  ⟨by decide, by decide, by decide,
    unique_pack_t_reverses [Ty.int, Ty.float, Ty.int, Ty.double] (by decide)⟩

/-! ## Further claims on the view layer and the binding resolver -/

theorem resolveFrom_congr (i : Nat) (l l' : List Requirement)
    (h : l.map Requirement.labels = l'.map Requirement.labels) :
    resolveFrom i l = resolveFrom i l' := by
  induction l generalizing i l' with
  | nil =>
    cases l' with
    | nil => rfl
    | cons r' rest' => simp at h
  | cons r rest ih =>
    cases l' with
    | nil => simp at h
    | cons r' rest' =>
      simp only [List.map_cons, List.cons.injEq] at h
      simp only [resolveFrom, h.1, ih (i + 1) rest' h.2]

/-- C15: over a table `T` with `N` rows, the view `Filtered(T, P)` with the always-true
predicate has size `N`, and iterating it yields the rows of `T` with the same values, in the
same order, with the global indices `0 .. N-1`. -/
theorem filtered_always_true {α : Type} (T : List α) :
    (Filtered (View.table T) fun _ => true).size = T.length ∧
    (Filtered (View.table T) fun _ => true).iterate = T.enum.map (fun q => ⟨q.1, q.2⟩) ∧
    (Filtered (View.table T) fun _ => true).iterate.map RowAccessor.values = T ∧
    (Filtered (View.table T) fun _ => true).iterate.map RowAccessor.index
      = List.range T.length ∧
    (Filtered (View.table tableA) fun _ => true).size = 8 := by
  have hit : (Filtered (View.table T) fun _ => true).iterate
      = T.enum.map (fun q => ⟨q.1, q.2⟩) := by
    rw [iterate_Filtered, View.iterate_table]
    simp
  refine ⟨?_, hit, ?_, ?_, rfl⟩
  · have h := size_Filtered (View.table T) (fun _ => true)
    have h2 := iterate_Filtered (View.table T) (fun _ => true)
    rw [← h2, hit, List.length_map, List.enum_length] at h
    exact h
  · rw [hit, List.map_map]
    exact List.enum_map_snd T
  · rw [hit, List.map_map]
    exact List.enum_map_fst T

/-- C16: declaring a requirement as `soa::Filtered<R>` or as the row iterator `R::iterator`
instead of the shape `R` does not change the inputs of the consumer: the same bindings, with
the same names, in the same order, whatever the other requirements are.  On the test:
`FooBars::iterator` and `Filtered<FooBars>::iterator` give the single input `FooBars`;
`Join<Foos, Bars, XYZ>` and its iterator give the same 3 inputs; `ITask` has 4 inputs. -/
theorem adaptAnalysisTask_filtered_iterator (suffix : Nat → String)
    (before after : List Requirement) (r : Requirement) :
    adaptAnalysisTask suffix (before ++ Requirement.filtered r :: after)
      = adaptAnalysisTask suffix (before ++ r :: after) ∧
    adaptAnalysisTask suffix (before ++ Requirement.iterator r :: after)
      = adaptAnalysisTask suffix (before ++ r :: after) ∧
    adaptAnalysisTask suffix ETask = [⟨"FooBars"⟩] ∧
    adaptAnalysisTask suffix FTask = [⟨"FooBars"⟩] ∧
    adaptAnalysisTask suffix HTask = adaptAnalysisTask suffix GTask ∧
    (adaptAnalysisTask suffix HTask).length = 3 ∧
    (adaptAnalysisTask suffix ITask).length = 4 := by
  refine ⟨?_, ?_, rfl, rfl, rfl, rfl, rfl⟩
  · rw [adaptAnalysisTask, adaptAnalysisTask,
      resolveFrom_congr 0 (before ++ Requirement.filtered r :: after) (before ++ r :: after)]
    simp [Requirement.labels, Requirement.tables]
  · rw [adaptAnalysisTask, adaptAnalysisTask,
      resolveFrom_congr 0 (before ++ Requirement.iterator r :: after) (before ++ r :: after)]
    simp [Requirement.labels, Requirement.tables]

/-! ## Lemmas on `full_intersected_pack_t`, `has_type_at_v`, `interleave_pack` -/

theorem full_intersected_pack_t_closed (Ps : List Pack) (P1 P2 : Pack) :
    full_intersected_pack_t (P1 :: P2 :: Ps)
      = some (P1.filter fun T => (P2 :: Ps).all (fun P => decide (T ∈ P)) && !is_void T) := by
  induction Ps generalizing P1 P2 with
  | nil =>
    rw [full_intersected_pack_t, intersected_pack, intersect_pack_eq]
    simp [has_type_eq_decide]
  | cons P3 Ps ih =>
    rw [full_intersected_pack_t, ih P2 P3, Option.some_bind, intersected_pack, intersect_pack_eq]
    congr 1
    apply List.filter_congr
    intro T _
    rw [has_type_eq_decide, Bool.eq_iff_iff]
    simp only [Bool.and_eq_true, decide_eq_true_eq, List.mem_filter, List.all_cons,
      Bool.not_eq_true', List.all_eq_true]
    constructor
    · rintro ⟨⟨h2, ⟨h3, hall⟩, hv⟩, _⟩
      exact ⟨⟨h2, h3, hall⟩, hv⟩
    · rintro ⟨⟨h2, h3, hall⟩, hv⟩
      exact ⟨⟨h2, ⟨h3, hall⟩, hv⟩, hv⟩

theorem pack_element_lt (P : Pack) (j : Nat) (T : Ty) (h : pack_element j P = some T) :
    j < pack_size P := by
  induction P generalizing j with
  | nil => simp [pack_element] at h
  | cons U Us ih =>
    cases j with
    | zero => simp [pack_size]
    | succ j =>
      have := ih j (by simpa [pack_element] using h)
      simp only [pack_size, List.length_cons] at this ⊢
      omega

theorem has_type_at_v_loop_spec (T : Ty) (Ts : Pack) (i size : Nat) :
    (T ∈ Ts → ∃ j, has_type_at_v.loop (Ts.map fun U => decide (T = U)) i size = i + j ∧
        pack_element j Ts = some T ∧ ∀ j', j' < j → pack_element j' Ts ≠ some T) ∧
    (T ∉ Ts → has_type_at_v.loop (Ts.map fun U => decide (T = U)) i size = size + 1) := by
  induction Ts generalizing i with
  | nil => simp [has_type_at_v.loop]
  | cons U Us ih =>
    by_cases hTU : T = U
    · subst hTU
      refine ⟨fun _ => ⟨0, by simp [has_type_at_v.loop], by simp [pack_element], ?_⟩, ?_⟩
      · intro j' hj'
        exact absurd hj' (Nat.not_lt_zero j')
      · intro h
        exact absurd (List.mem_cons_self _ _) h
    · have hloop : has_type_at_v.loop ((U :: Us).map fun V => decide (T = V)) i size
          = has_type_at_v.loop (Us.map fun V => decide (T = V)) (i + 1) size := by
        simp [has_type_at_v.loop, hTU]
      refine ⟨fun hmem => ?_, fun hnot => ?_⟩
      · have hUs : T ∈ Us := by
          rcases List.mem_cons.1 hmem with h | h
          · exact absurd h hTU
          · exact h
        obtain ⟨j, hj, hel, hmin⟩ := (ih (i + 1)).1 hUs
        refine ⟨j + 1, by rw [hloop, hj]; omega, by simpa [pack_element] using hel, ?_⟩
        intro j' hj'
        cases j' with
        | zero =>
          simp only [pack_element, ne_eq, Option.some.injEq]
          exact fun h => hTU h.symm
        | succ j' =>
          simpa [pack_element] using hmin j' (by omega)
      · rw [hloop]
        exact (ih (i + 1)).2 (fun h => hnot (List.mem_cons_of_mem _ h))

theorem concatenated_pack_t_closed (Ps : List Pack) (P1 P2 : Pack) :
    concatenated_pack_t (P1 :: P2 :: Ps) = some (P1 :: P2 :: Ps).flatten := by
  induction Ps generalizing P1 P2 with
  | nil => simp [concatenated_pack_t, concatenate_pack]
  | cons P3 Ps ih =>
    rw [concatenated_pack_t, ih P2 P3]
    simp [concatenate_pack]

theorem interleaved_elements (A B : Pack) (h : A.length = B.length) (i : Nat)
    (hi : i < A.length) :
    ∃ a b, pack_element i A = some a ∧ pack_element i B = some b ∧
      pack_element (2 * i) (List.zipWith (fun A1 A2 => [A1, A2]) A B).flatten = some a ∧
      pack_element (2 * i + 1) (List.zipWith (fun A1 A2 => [A1, A2]) A B).flatten = some b := by
  induction A generalizing B i with
  | nil => simp at hi
  | cons a A ih =>
    cases B with
    | nil => simp at h
    | cons b B =>
      cases i with
      | zero => exact ⟨a, b, by simp [pack_element]⟩
      | succ i =>
        obtain ⟨x, y, hx, hy, h0, h1⟩ := ih B (by simpa using h) i (by simpa using hi)
        refine ⟨x, y, by simpa [pack_element] using hx, by simpa [pack_element] using hy, ?_, ?_⟩
        · have : 2 * (i + 1) = (2 * i + 1) + 1 := by omega
          rw [this]
          simpa [pack_element] using h0
        · have : 2 * (i + 1) + 1 = (2 * i + 1 + 1) + 1 := by omega
          rw [this]
          simpa [pack_element] using h1

theorem interleaved_length (A B : Pack) (h : A.length = B.length) :
    (List.zipWith (fun A1 A2 => [A1, A2]) A B).flatten.length = 2 * A.length := by
  induction A generalizing B with
  | nil => simp
  | cons a A ih =>
    cases B with
    | nil => simp at h
    | cons b B =>
      have := ih B (by simpa using h)
      simp only [List.zipWith_cons_cons, List.flatten_cons, List.length_append, List.length_cons,
        List.length_nil, this]
      omega

/-! ## Claims on `full_intersected_pack_t`, `has_type_at_v`, `interleave_pack` -/

/-- C21: for two or more packs `P1, P2, ..., Pn` without `void`,
`full_intersected_pack_t<P1, ..., Pn>` is well-formed and is the sublist of `P1`, in the order
of `P1`, of exactly the types that occur in every one of the packs.  (Only `P1` has to be free
of `void` for this.) -/
theorem full_intersected_pack_t_sublist (P1 P2 : Pack) (Ps : List Pack) (hv : Ty.void ∉ P1) :
    ∃ I, full_intersected_pack_t (P1 :: P2 :: Ps) = some I ∧
      I = P1.filter (fun T => (P2 :: Ps).all fun P => decide (T ∈ P)) ∧ I.Sublist P1 ∧
      ∀ T, T ∈ I ↔ ∀ P ∈ P1 :: P2 :: Ps, T ∈ P := by
  refine ⟨_, ?_, rfl, List.filter_sublist P1, fun T => ?_⟩
  · rw [full_intersected_pack_t_closed,
      filter_not_void (fun T => (P2 :: Ps).all fun P => decide (T ∈ P)) P1 hv]
  · simp [List.mem_filter]

/-- Witness of C21 at `pack<int, float, char, double>`, `pack<char, int, double>`,
`pack<double, bool, int>`: the intersection is `pack<int, double>`. -/
theorem full_intersected_pack_t_sublist_witness :
    Ty.void ∉ ([Ty.int, Ty.float, Ty.char, Ty.double] : Pack) ∧
    full_intersected_pack_t [[Ty.int, Ty.float, Ty.char, Ty.double],
        [Ty.char, Ty.int, Ty.double], [Ty.double, Ty.bool, Ty.int]]
      = some [Ty.int, Ty.double] ∧
    ∃ I, full_intersected_pack_t ([Ty.int, Ty.float, Ty.char, Ty.double]
          :: [Ty.char, Ty.int, Ty.double] :: [[Ty.double, Ty.bool, Ty.int]]) = some I ∧
      I = [Ty.int, Ty.float, Ty.char, Ty.double].filter
        (fun T => ([Ty.char, Ty.int, Ty.double] :: [[Ty.double, Ty.bool, Ty.int]]).all
          fun P => decide (T ∈ P)) ∧
      I.Sublist [Ty.int, Ty.float, Ty.char, Ty.double] ∧
      ∀ T, T ∈ I ↔ ∀ P ∈ [Ty.int, Ty.float, Ty.char, Ty.double]
        :: [Ty.char, Ty.int, Ty.double] :: [[Ty.double, Ty.bool, Ty.int]], T ∈ P :=
  ⟨by decide, by decide,
    full_intersected_pack_t_sublist [Ty.int, Ty.float, Ty.char, Ty.double]
      [Ty.char, Ty.int, Ty.double] [[Ty.double, Ty.bool, Ty.int]] (by decide)⟩

/-- C22: for a non-empty pack `P`, `has_type_at_v<T>(P)` is well-formed; when `T` occurs in
`P` its value is the smallest index `i` with `pack_element_t<i, P>` equal to `T`, and when `T`
does not occur in `P` its value is `pack_size(P) + 1`.  The value is below `pack_size(P)` if
and only if `has_type<T>(P)` is true, and it is never `pack_size(P)`. -/
theorem has_type_at_v_first_index (T : Ty) (P : Pack) (hne : P ≠ []) :
    ∃ k, has_type_at_v T P = some k ∧
      (T ∈ P → pack_element k P = some T ∧ ∀ j, j < k → pack_element j P ≠ some T) ∧
      (T ∉ P → k = pack_size P + 1) ∧
      (k < pack_size P ↔ has_type T P = true) ∧
      k ≠ pack_size P := by
  obtain ⟨U, Us, rfl⟩ := List.exists_cons_of_ne_nil hne
  have hspec := has_type_at_v_loop_spec T (U :: Us) 0 (pack_size (U :: Us))
  refine ⟨_, rfl, ?_, hspec.2, ?_, ?_⟩
  · intro hmem
    obtain ⟨j, hj, hel, hmin⟩ := hspec.1 hmem
    rw [hj, Nat.zero_add]
    exact ⟨hel, hmin⟩
  · rw [has_type_iff]
    constructor
    · intro hlt
      by_contra hnot
      rw [hspec.2 hnot] at hlt
      omega
    · intro hmem
      obtain ⟨j, hj, hel, _⟩ := hspec.1 hmem
      rw [hj, Nat.zero_add]
      exact pack_element_lt _ j T hel
  · by_cases hmem : T ∈ U :: Us
    · obtain ⟨j, hj, hel, _⟩ := hspec.1 hmem
      rw [hj, Nat.zero_add]
      exact Nat.ne_of_lt (pack_element_lt _ j T hel)
    · rw [hspec.2 hmem]
      omega

/-- Witness of C22 at `T = int`, `P = pack<char, int, int>`: the value is 1; for
`pack<char, float>` it is 3. -/
theorem has_type_at_v_first_index_witness :
    ([Ty.char, Ty.int, Ty.int] : Pack) ≠ [] ∧
    has_type_at_v Ty.int [Ty.char, Ty.int, Ty.int] = some 1 ∧
    has_type_at_v Ty.int [Ty.char, Ty.float] = some 3 ∧
    ∃ k, has_type_at_v Ty.int [Ty.char, Ty.int, Ty.int] = some k ∧
      (Ty.int ∈ ([Ty.char, Ty.int, Ty.int] : Pack) →
        pack_element k [Ty.char, Ty.int, Ty.int] = some Ty.int ∧
        ∀ j, j < k → pack_element j [Ty.char, Ty.int, Ty.int] ≠ some Ty.int) ∧
      (Ty.int ∉ ([Ty.char, Ty.int, Ty.int] : Pack) →
        k = pack_size [Ty.char, Ty.int, Ty.int] + 1) ∧
      (k < pack_size [Ty.char, Ty.int, Ty.int]
        ↔ has_type Ty.int [Ty.char, Ty.int, Ty.int] = true) ∧
      k ≠ pack_size [Ty.char, Ty.int, Ty.int] :=
  ⟨by decide, by decide, by decide,
    has_type_at_v_first_index Ty.int [Ty.char, Ty.int, Ty.int] (by decide)⟩

/-- C23: for packs `A` and `B` of the same length `n >= 2`, `interleave_pack(A, B)` is
well-formed and is the pack of length `2n` whose element at index `2i` is the `i`-th type of
`A` and whose element at index `2i + 1` is the `i`-th type of `B`, for every `i < n`. -/
theorem interleave_pack_elements (A B : Pack) (hlen : A.length = B.length)
    (hn : 2 ≤ A.length) :
    ∃ I, interleave_pack A B = some I ∧ pack_size I = 2 * pack_size A ∧
      ∀ i, i < pack_size A → ∃ a b, pack_element i A = some a ∧ pack_element i B = some b ∧
        pack_element (2 * i) I = some a ∧ pack_element (2 * i + 1) I = some b := by
  refine ⟨(List.zipWith (fun A1 A2 => [A1, A2]) A B).flatten, ?_,
    interleaved_length A B hlen, fun i hi => interleaved_elements A B hlen i hi⟩
  rw [interleave_pack, if_pos hlen]
  match A, B, hlen, hn with
  | a1 :: a2 :: A, b1 :: b2 :: B, _, _ =>
    simp only [List.zipWith_cons_cons]
    exact concatenated_pack_t_closed _ _ _

/-- Witness of C23 at `A = pack<int, float, char>`, `B = pack<T1, T2, T3>`. -/
theorem interleave_pack_elements_witness :
    ([Ty.int, Ty.float, Ty.char] : Pack).length
      = ([Ty.named 1, Ty.named 2, Ty.named 3] : Pack).length ∧
    2 ≤ ([Ty.int, Ty.float, Ty.char] : Pack).length ∧
    interleave_pack [Ty.int, Ty.float, Ty.char] [Ty.named 1, Ty.named 2, Ty.named 3]
      = some [Ty.int, Ty.named 1, Ty.float, Ty.named 2, Ty.char, Ty.named 3] ∧
    ∃ I, interleave_pack [Ty.int, Ty.float, Ty.char] [Ty.named 1, Ty.named 2, Ty.named 3]
        = some I ∧
      pack_size I = 2 * pack_size [Ty.int, Ty.float, Ty.char] ∧
      ∀ i, i < pack_size [Ty.int, Ty.float, Ty.char] →
        ∃ a b, pack_element i [Ty.int, Ty.float, Ty.char] = some a ∧
          pack_element i [Ty.named 1, Ty.named 2, Ty.named 3] = some b ∧
          pack_element (2 * i) I = some a ∧ pack_element (2 * i + 1) I = some b :=
  ⟨by decide, by decide, by decide,
    interleave_pack_elements [Ty.int, Ty.float, Ty.char]
      [Ty.named 1, Ty.named 2, Ty.named 3] (by decide) (by decide)⟩

/-! ## Lemmas on the mean parameters of `CalibdEdxCorrection` -/

theorem CalibdEdxCorrection.transform_getElem? {F : Type} (ops : FloatOps F) (params : List F)
    (row : Nat → F) (p : Nat) :
    (CalibdEdxCorrection.transform ops params row)[p]?
      = (params[p]?).map fun val => ops.add val (row p) := by
  unfold CalibdEdxCorrection.transform
  rw [List.getElem?_zipWith]
  by_cases hp : p < params.length
  · simp [List.getElem?_eq_getElem hp, List.getElem?_range hp]
  · have hnone : params[p]? = none := List.getElem?_eq_none (Nat.le_of_not_lt hp)
    simp [hnone]

theorem CalibdEdxCorrection.accumulate_getElem? {F : Type} (ops : FloatOps F)
    (rows : Nat → Nat → F) (indices : List Nat) (params : List F) (p : Nat) :
    (indices.foldl (fun params index => CalibdEdxCorrection.transform ops params (rows index))
        params)[p]?
      = (params[p]?).map fun val =>
          indices.foldl (fun mean index => ops.add mean (rows index p)) val := by
  induction indices generalizing params with
  | nil => simp
  | cons index rest ih =>
    rw [List.foldl_cons, ih, CalibdEdxCorrection.transform_getElem?, Option.map_map]
    rfl

theorem CalibdEdxCorrection.mean_getElem? {F : Type} (ops : FloatOps F)
    (rows : Nat → Nat → F) (n size : Nat) (divisor : F) (p : Nat) (hp : p < size) :
    (((List.range n).foldl
        (fun params index => CalibdEdxCorrection.transform ops params (rows index))
        (List.replicate size ops.zero)).map fun val => ops.div val divisor)[p]?
      = some (ops.div
          ((List.range n).foldl (fun mean index => ops.add mean (rows index p)) ops.zero)
          divisor) := by
  rw [List.getElem?_map, CalibdEdxCorrection.accumulate_getElem?, List.getElem?_replicate,
    if_pos hp]
  rfl

theorem CalibdEdxCorrection.transform_length {F : Type} (ops : FloatOps F) (params : List F)
    (row : Nat → F) : (CalibdEdxCorrection.transform ops params row).length = params.length := by
  simp [CalibdEdxCorrection.transform]

theorem CalibdEdxCorrection.accumulate_length {F : Type} (ops : FloatOps F)
    (rows : Nat → Nat → F) (indices : List Nat) (params : List F) :
    (indices.foldl (fun params index => CalibdEdxCorrection.transform ops params (rows index))
        params).length = params.length := by
  induction indices generalizing params with
  | nil => rfl
  | cons index rest ih =>
    rw [List.foldl_cons, ih, CalibdEdxCorrection.transform_length]

/-! ## Claim on the mean parameters of `CalibdEdxCorrection` -/

/-- C24: for every charge type, every stack and every `p < ParamSize`, element `p` of the
array returned by `getMeanParams(charge)` is the value of `getMeanParam(charge, p)`, and
element `p` of `getMeanParams(stack, charge)` is the value of `getMeanParam(stack, charge, p)`,
whatever the table, the constants and the arithmetic are: both overloads add the same entries
in the same order, starting from zero, and divide by the same number.  Both arrays have
`ParamSize` elements. -/
theorem getMeanParams_eq_getMeanParam {F : Type} (ops : FloatOps F)
    (c : CalibdEdxCorrection F) (stack : GEMstack) (charge : ChargeType) (p : Nat)
    (hp : p < c.ParamSize) :
    (c.getMeanParams ops charge)[p]? = some (c.getMeanParam ops charge p) ∧
    (c.getMeanParamsOfStack ops stack charge)[p]?
      = some (c.getMeanParamOfStack ops stack charge p) ∧
    (c.getMeanParams ops charge).length = c.ParamSize ∧
    (c.getMeanParamsOfStack ops stack charge).length = c.ParamSize := by
  have hge : ¬ p ≥ c.ParamSize := Nat.not_le.2 hp
  refine ⟨?_, ?_, ?_, ?_⟩
  · rw [CalibdEdxCorrection.getMeanParam, if_neg hge]
    exact CalibdEdxCorrection.mean_getElem? ops
      (fun index => c.mParams (index + charge * c.FitSize / 2)) _ _ _ p hp
  · rw [CalibdEdxCorrection.getMeanParamOfStack, if_neg hge]
    exact CalibdEdxCorrection.mean_getElem? ops
      (fun index => c.getParams ⟨index, stack⟩ charge) _ _ _ p hp
  · simp only [CalibdEdxCorrection.getMeanParams, List.length_map]
    rw [CalibdEdxCorrection.accumulate_length ops
      (fun index => c.mParams (index + charge * c.FitSize / 2)), List.length_replicate]
  · simp only [CalibdEdxCorrection.getMeanParamsOfStack, List.length_map]
    rw [CalibdEdxCorrection.accumulate_length ops
      (fun index => c.getParams ⟨index, stack⟩ charge), List.length_replicate]

/-- Witness of C24 on the sample object with integer arithmetic, at stack 2, charge 1 and
parameter 1: the arrays are `[128, 133, 138]` and `[710, 711, 712]`. -/
theorem getMeanParams_eq_getMeanParam_witness :
    1 < sampleCorrection.ParamSize ∧
    sampleCorrection.getMeanParams integerOps 1 = [128, 133, 138] ∧
    sampleCorrection.getMeanParam integerOps 1 1 = 133 ∧
    sampleCorrection.getMeanParamsOfStack integerOps 2 1 = [710, 711, 712] ∧
    sampleCorrection.getMeanParamOfStack integerOps 2 1 1 = 711 ∧
    (sampleCorrection.getMeanParams integerOps 1)[1]?
      = some (sampleCorrection.getMeanParam integerOps 1 1) ∧
    (sampleCorrection.getMeanParamsOfStack integerOps 2 1)[1]?
      = some (sampleCorrection.getMeanParamOfStack integerOps 2 1 1) ∧
    (sampleCorrection.getMeanParams integerOps 1).length = sampleCorrection.ParamSize ∧
    (sampleCorrection.getMeanParamsOfStack integerOps 2 1).length
      = sampleCorrection.ParamSize :=
  ⟨by decide, by decide, by decide, by decide, by decide,
    getMeanParams_eq_getMeanParam integerOps sampleCorrection 2 1 1 (by decide)⟩

end O2
